import Mathlib

/-!
Verification of the virtualized file-tree index engine of the `lapce` file
explorer panel (`lapce-ui/src/explorer.rs`).

The tree node type `FileNodeItem` and the small `FileExplorerData` helpers
(`get_node_by_index_mut`, `node_tree` + `update_node_count`) live in crates
whose sources are not part of this snapshot; they are modelled from the
specification (marked `Modelled from the spec:` below).  Everything else is a
direct shallow embedding of the Rust source: `get_item_children`,
`get_item_children_mut`, `paint_file_node_item` (with the naming overlay
adjustments of `draw_name_input`), the `FileExplorerFileList` layout and event
handlers, and `expand_dir`.

Rust's `item.sorted_children()` yields the children in a stable display order;
here `children` is that ordered list directly.  Mutation through `&mut`
references is modelled by a positional updater (`mutate_at`) that follows the
exact traversal of `get_item_children_mut` and performs the ancestor
`children_open_count` recomputation the handlers do via
`node_tree`/`update_node_count`.
-/

/-- Modelled from the spec: `FileNodeItem` (lapce-rpc `file.rs`, not in this
snapshot).  One filesystem entry: path, directory flag, whether the children
were ever fetched (`read`), whether the directory is displayed open
(`is_open`, the source's `open` field), the children in display order, and the
cached number of rows the open subtree contributes (`children_open_count`). -/
inductive FileNodeItem : Type where
  | mk (path_buf : List String) (is_dir : Bool) (read : Bool) (is_open : Bool)
      (children : List FileNodeItem) (children_open_count : Nat)

def FileNodeItem.path_buf : FileNodeItem → List String
  | .mk p _ _ _ _ _ => p

def FileNodeItem.is_dir : FileNodeItem → Bool
  | .mk _ d _ _ _ _ => d

def FileNodeItem.read : FileNodeItem → Bool
  | .mk _ _ r _ _ _ => r

def FileNodeItem.is_open : FileNodeItem → Bool
  | .mk _ _ _ o _ _ => o

def FileNodeItem.children : FileNodeItem → List FileNodeItem
  | .mk _ _ _ _ cs _ => cs

def FileNodeItem.children_open_count : FileNodeItem → Nat
  | .mk _ _ _ _ _ c => c

/-- The number of rows a list of siblings contributes: one row for each child
plus its cached open-subtree row count.  This is the sum the skip arithmetic
of the resolver and painter is built on. -/
def total_count (cs : List FileNodeItem) : Nat :=
  (cs.map (fun c => c.children_open_count + 1)).sum

/-- Modelled from the spec: `update_node_count` applied to one node — set the
cached `children_open_count` from the children's cached counts (zero when the
node is not displayed open). -/
def refresh_count : FileNodeItem → FileNodeItem
  | .mk p d r o cs _ =>
    .mk p d r o cs (if o then total_count cs else 0)

mutual

/-- Modelled from the spec: the cached `children_open_count` of every node in
the tree agrees with the current open/children state (the spec's consistency
invariant for `visible_row_count`). -/
def counts_ok : FileNodeItem → Bool
  | .mk _ _ _ o cs cnt =>
    (decide (cnt = if o then total_count cs else 0)) && counts_ok_list cs

def counts_ok_list : List FileNodeItem → Bool
  | [] => true
  | c :: rest => counts_ok c && counts_ok_list rest

end

mutual

/-- The nodes of the subtree below `item` that are currently displayed, in
depth-first display order (the node itself excluded, matching the convention
that a node's own row is counted by its parent). -/
def visible_list : FileNodeItem → List FileNodeItem
  | .mk _ _ _ o cs _ => if o then visible_list_of cs else []

def visible_list_of : List FileNodeItem → List FileNodeItem
  | [] => []
  | c :: rest => (c :: visible_list c) ++ visible_list_of rest

end

mutual

/-- Display rows: the node itself at row `i` and indent `level`, followed by
its displayed descendants.  Successive siblings are placed using the cached
counts, exactly as the paint traversal advances its row counter. -/
def rows (level i : Nat) (item : FileNodeItem) :
    List (FileNodeItem × Nat × Nat) :=
  (item, level, i) ::
    (match item with
     | .mk _ _ _ o cs _ => if o then rows_list (level + 1) i cs else [])

def rows_list (level i : Nat) : List FileNodeItem → List (FileNodeItem × Nat × Nat)
  | [] => []
  | c :: rest =>
    rows level (i + 1) c ++ rows_list level (i + 1 + c.children_open_count) rest

end

mutual

/-- Shallow embedding of `get_item_children` (explorer.rs lines 242-264): the
row resolver.  `i` is the running row counter, `index` the target row; returns
the final counter and the resolved node, skipping whole subtrees via the
cached counts. -/
def get_item_children (i index : Nat) (item : FileNodeItem) :
    Nat × Option FileNodeItem :=
  if i = index then (i, some item)
  else
    match item with
    | .mk _ _ _ isOpen children _ =>
      if isOpen then get_item_children_go index i children else (i, none)

/-- The `for child in item.sorted_children()` loop body of
`get_item_children`. -/
def get_item_children_go (index i : Nat) (cs : List FileNodeItem) :
    Nat × Option FileNodeItem :=
  match cs with
  | [] => (i, none)
  | child :: rest =>
    let count := child.children_open_count
    if i + count + 1 ≥ index then
      let r := get_item_children (i + 1) index child
      if r.1 = index then r
      else get_item_children_go index (i + count + 1) rest
    else get_item_children_go index (i + count + 1) rest

end

mutual

/-- Shallow embedding of `get_item_children_mut` (explorer.rs lines 266-288),
the exclusive-access resolver; in this pure embedding it returns the located
node by value, mirroring the source text of the `&mut` variant line by
line. -/
def get_item_children_mut (i index : Nat) (item : FileNodeItem) :
    Nat × Option FileNodeItem :=
  if i = index then (i, some item)
  else
    match item with
    | .mk _ _ _ isOpen children _ =>
      if isOpen then get_item_children_mut_go index i children else (i, none)

/-- The child loop of `get_item_children_mut`. -/
def get_item_children_mut_go (index i : Nat) (cs : List FileNodeItem) :
    Nat × Option FileNodeItem :=
  match cs with
  | [] => (i, none)
  | child :: rest =>
    let count := child.children_open_count
    if i + count + 1 ≥ index then
      let r := get_item_children_mut (i + 1) index child
      if r.1 = index then r
      else get_item_children_mut_go index (i + count + 1) rest
    else get_item_children_mut_go index (i + count + 1) rest

end

mutual

/-- Modelled from the spec: mutating through the reference returned by
`get_item_children_mut` and then recomputing `children_open_count` for the
node and every ancestor (the handlers' `node_tree` + `update_node_count`
loop).  The traversal and its skip guards are exactly those of
`get_item_children_mut`; `f` is applied to the node at row `index`, and the
cached count of that node and of each ancestor on the way out is refreshed. -/
def mutate_at (i index : Nat) (f : FileNodeItem → FileNodeItem)
    (item : FileNodeItem) : Nat × FileNodeItem :=
  if i = index then (i, refresh_count (f item))
  else
    match item with
    | .mk p d r o cs cnt =>
      if o then
        let res := mutate_go index f i cs
        if res.1 = index then
          (res.1, refresh_count (.mk p d r o res.2 cnt))
        else (res.1, .mk p d r o res.2 cnt)
      else (i, item)

def mutate_go (index : Nat) (f : FileNodeItem → FileNodeItem) (i : Nat) :
    List FileNodeItem → Nat × List FileNodeItem
  | [] => (i, [])
  | child :: rest =>
    let count := child.children_open_count
    if i + count + 1 ≥ index then
      let r := mutate_at (i + 1) index f child
      if r.1 = index then (r.1, r.2 :: rest)
      else
        let r2 := mutate_go index f (i + count + 1) rest
        (r2.1, child :: r2.2)
    else
      let r2 := mutate_go index f (i + count + 1) rest
      (r2.1, child :: r2.2)

end

/-- Set the `open` flag of a node, all other fields unchanged. -/
def set_is_open (b : Bool) : FileNodeItem → FileNodeItem
  | .mk p d r _ cs cnt => .mk p d r b cs cnt

/-- The mutation the left-click handler performs through the resolved `&mut`
reference (explorer.rs lines 516-529): toggle `open` when the directory was
already read, otherwise leave the node untouched (a `read_dir` request is
issued instead). -/
def toggle_if_read (n : FileNodeItem) : FileNodeItem :=
  if n.read then set_is_open (!n.is_open) n else n

/-- The mutation `expand_dir` performs (explorer.rs lines 890-892): set
`open = true` when the directory was already read, otherwise leave the node
untouched (opening is deferred to load completion). -/
def open_if_read (n : FileNodeItem) : FileNodeItem :=
  if n.read then set_is_open true n else n

/-- The commands the click handler can submit or request. -/
inductive UICommand : Type where
  | OpenFile (path : List String)
  | ActiveFileChanged (path : List String)
  | ReadDirRequest (path : List String)

/-- Shallow embedding of the left-button `Event::MouseDown` arm of
`FileExplorerFileList::event` (explorer.rs lines 504-551): resolve the
clicked row; on a directory toggle `open` if `read` (else request a directory
read) and recompute the ancestor counts; on a file submit `OpenFile` plus
`ActiveFileChanged`; on no node do nothing. -/
def mouse_left_down (ws : FileNodeItem) (index : Nat) :
    FileNodeItem × List UICommand :=
  match (get_item_children_mut 0 index ws).2 with
  | none => (ws, [])
  | some node =>
    if node.is_dir then
      ((mutate_at 0 index toggle_if_read ws).2,
        if node.read then [] else [UICommand.ReadDirRequest node.path_buf])
    else
      (ws, [UICommand.OpenFile node.path_buf,
            UICommand.ActiveFileChanged node.path_buf])

/-- What happened to the `on_finished` continuation of `expand_dir`:
`finished_now` means it was invoked exactly once, synchronously;
`deferred_to_load` means it was attached to the asynchronous `read_dir_cb`
request instead. -/
inductive ExpandOutcome : Type where
  | finished_now
  | deferred_to_load
deriving DecidableEq

/-- Shallow embedding of `expand_dir` (explorer.rs lines 880-915): resolve
`index`; an already-read directory is opened and the continuation runs now; an
unread directory attaches the continuation to the `read_dir_cb` request; a
file or an unresolved row runs the continuation now and leaves the tree
alone.  In the directory cases the ancestor counts are recomputed
(`node_tree` + `update_node_count`), which `mutate_at` performs. -/
def expand_dir (ws : FileNodeItem) (index : Nat) :
    FileNodeItem × ExpandOutcome :=
  match (get_item_children_mut 0 index ws).2 with
  | some node =>
    if node.is_dir then
      if node.read then
        ((mutate_at 0 index open_if_read ws).2, ExpandOutcome.finished_now)
      else
        ((mutate_at 0 index open_if_read ws).2, ExpandOutcome.deferred_to_load)
    else (ws, ExpandOutcome.finished_now)
  | none => (ws, ExpandOutcome.finished_now)

/-- Modelled from the spec: the naming-overlay state (lapce-data `Naming`, not
in this snapshot), restricted to the fields the row arithmetic uses.
`Naming.Naming` is the composing state (a phantom row), `Naming.Renaming`
substitutes an existing row. -/
inductive Naming : Type where
  | Renaming (list_index : Nat) (indent_level : Nat)
  | Naming (list_index : Nat) (indent_level : Nat)

/-- The `Naming::list_index` accessor: the anchor row of the overlay. -/
def naming_list_index : Naming → Nat
  | .Renaming li _ => li
  | .Naming li _ => li

/-- The row count `FileExplorerFileList::layout` derives the panel height from
(explorer.rs lines 735-748, before multiplying by the line height and clamping
to the window): the workspace's `children_open_count`, plus one extra row
exactly when the overlay is in the `Naming` (composing) state. -/
def layout_rows (ws : FileNodeItem) (naming : Option Naming) : Nat :=
  ws.children_open_count +
    (match naming with
     | some (.Naming _ _) => 1
     | _ => 0)

mutual

/-- Shallow embedding of `paint_file_node_item` (explorer.rs lines 134-219).
Returns the list of `paint_single_file_node_item` calls as
(node, level, row) triples, the updated `drawn_name_input` flag, and the final
row counter.  The naming overlay handling of `draw_name_input` (lines
221-240) is inlined: at the overlay's row, a composing overlay advances the
counter by one (phantom row) while a renaming overlay suppresses the
underlying node's own paint. -/
def paint_file_node_item (min max : Nat) (naming : Option Naming)
    (level current : Nat) (drawn : Bool) (item : FileNodeItem) :
    List (FileNodeItem × Nat × Nat) × Bool × Nat :=
  if current > max then ([], drawn, current)
  else if current + item.children_open_count < min then
    ([], drawn, current + item.children_open_count)
  else
    let step : List (FileNodeItem × Nat × Nat) × Bool × Nat :=
      if min ≤ current then
        match naming, drawn with
        | some nm, false =>
          if current = naming_list_index nm then
            match nm with
            | .Renaming _ _ => ([], true, current)
            | .Naming _ _ => ([(item, level, current + 1)], true, current + 1)
          else ([(item, level, current)], drawn, current)
        | _, _ => ([(item, level, current)], drawn, current)
      else ([], drawn, current)
    match item with
    | .mk _ _ _ isOpen children _ =>
      if isOpen then
        let rest := paint_children min max naming (level + 1)
          step.2.2 step.2.1 children
        (step.1 ++ rest.1, rest.2.1, rest.2.2)
      else step

/-- The child loop of `paint_file_node_item`, which is also the loop
`FileExplorerFileList::paint` (explorer.rs lines 763-788) runs over the
workspace's children with `level + 1 = 1` and `i = 0`: each child is painted
at `i + 1`, and the loop stops as soon as the counter passes `max`. -/
def paint_children (min max : Nat) (naming : Option Naming)
    (level i : Nat) (drawn : Bool) :
    List FileNodeItem → List (FileNodeItem × Nat × Nat) × Bool × Nat
  | [] => ([], drawn, i)
  | c :: rest =>
    let r := paint_file_node_item min max naming level (i + 1) drawn c
    if r.2.2 > max then r
    else
      let r2 := paint_children min max naming level r.2.2 r.2.1 rest
      (r.1 ++ r2.1, r2.2.1, r2.2.2)

end

/-- Keys the naming-end logic distinguishes. -/
inductive ExplorerKey : Type where
  | Enter
  | Escape
  | OtherKey
deriving DecidableEq

/-- The event kinds reaching `FileExplorerFileList::event`. -/
inductive ExplorerEvent : Type where
  | MouseDown
  | KeyUp
  | KeyDown (key : ExplorerKey)
  | OtherEvent
deriving DecidableEq

/-- An `ExplorerEndNaming` command with its `apply_naming` payload. -/
structure EndNaming : Type where
  apply_naming : Bool
deriving DecidableEq

/-- Shallow embedding of the naming-end logic of
`FileExplorerFileList::event` (explorer.rs lines 432-474): with the edit
input focused, a `KeyDown` of Enter submits `ExplorerEndNaming` with
`apply_naming = true` and Escape with `apply_naming = false`; the event is
then forwarded to the input while naming is active and processing stops if
the input handled it; otherwise a `MouseDown`, `KeyUp` or `KeyDown` while
naming is active and the input is unfocused submits `ExplorerEndNaming` with
`apply_naming = true`.  Returns the submitted `ExplorerEndNaming` commands in
order. -/
def naming_end_commands (ev : ExplorerEvent)
    (naming_is_some has_focus input_handled : Bool) : List EndNaming :=
  let enter_cmds : List EndNaming :=
    match ev with
    | .KeyDown k =>
      if has_focus then
        if k = .Enter then [⟨true⟩]
        else if k = .Escape then [⟨false⟩]
        else []
      else []
    | _ => []
  if naming_is_some && input_handled then enter_cmds
  else
    enter_cmds ++
      (if (match ev with
           | .MouseDown => true
           | .KeyUp => true
           | .KeyDown _ => true
           | .OtherEvent => false)
          && naming_is_some && !has_focus
       then [⟨true⟩] else [])

mutual

/-- The spec invariant `open = true` implies `read = true`, for a node and its
whole subtree. -/
def open_read_ok : FileNodeItem → Bool
  | .mk _ _ r o cs _ => (!o || r) && open_read_ok_list cs

def open_read_ok_list : List FileNodeItem → Bool
  | [] => true
  | c :: rest => open_read_ok c && open_read_ok_list rest

end

/-! ## Concrete witness trees -/

/-- Witness: an unread, closed file node. -/
def witFileC : FileNodeItem := .mk ["a", "c"] false false false [] 0

/-- Witness: a read, open directory containing one file. -/
def witDirA : FileNodeItem := .mk ["a"] true true true [witFileC] 1

/-- Witness: a second file at top level. -/
def witFileB : FileNodeItem := .mk ["b"] false false false [] 0

/-- Witness: a workspace root with an open directory and a file. -/
def witW : FileNodeItem := .mk [] true true true [witDirA, witFileB] 3

/-- Witness: an unread, closed directory. -/
def witDirU : FileNodeItem := .mk ["u"] true false false [] 0

/-- Witness: a workspace root with an unread directory and a file. -/
def witWU : FileNodeItem := .mk [] true true true [witDirU, witFileB] 2

/-! ## Basic facts about the embedding -/

@[simp] theorem path_buf_mk (p : List String) (d r o : Bool)
    (cs : List FileNodeItem) (cnt : Nat) :
    (FileNodeItem.mk p d r o cs cnt).path_buf = p := rfl

@[simp] theorem is_dir_mk (p : List String) (d r o : Bool)
    (cs : List FileNodeItem) (cnt : Nat) :
    (FileNodeItem.mk p d r o cs cnt).is_dir = d := rfl

@[simp] theorem read_mk (p : List String) (d r o : Bool)
    (cs : List FileNodeItem) (cnt : Nat) :
    (FileNodeItem.mk p d r o cs cnt).read = r := rfl

@[simp] theorem is_open_mk (p : List String) (d r o : Bool)
    (cs : List FileNodeItem) (cnt : Nat) :
    (FileNodeItem.mk p d r o cs cnt).is_open = o := rfl

@[simp] theorem children_mk (p : List String) (d r o : Bool)
    (cs : List FileNodeItem) (cnt : Nat) :
    (FileNodeItem.mk p d r o cs cnt).children = cs := rfl

@[simp] theorem children_open_count_mk (p : List String) (d r o : Bool)
    (cs : List FileNodeItem) (cnt : Nat) :
    (FileNodeItem.mk p d r o cs cnt).children_open_count = cnt := rfl

@[simp] theorem total_count_nil : total_count [] = 0 := rfl

@[simp] theorem total_count_cons (c : FileNodeItem) (rest : List FileNodeItem) :
    total_count (c :: rest) = c.children_open_count + 1 + total_count rest := by
  simp [total_count]

/-- Structural induction for the nested tree type: to prove a property of
every node it suffices to prove it for a node given it for all children. -/
theorem tree_induction (motive : FileNodeItem → Prop)
    (step : ∀ p d r o cs cnt, (∀ c, c ∈ cs → motive c) →
      motive (FileNodeItem.mk p d r o cs cnt)) :
    ∀ item, motive item := by
  have H : ∀ n item, sizeOf item ≤ n → motive item := by
    intro n
    induction n with
    | zero =>
      intro item h
      cases item with
      | mk p d r o cs cnt => simp [FileNodeItem.mk.sizeOf_spec] at h
    | succ n ih =>
      intro item h
      cases item with
      | mk p d r o cs cnt =>
        apply step
        intro c hc
        apply ih
        have h1 := List.sizeOf_lt_of_mem hc
        simp [FileNodeItem.mk.sizeOf_spec] at h
        omega
  intro item
  exact H (sizeOf item) item (le_refl _)

theorem counts_ok_mk {p : List String} {d r o : Bool}
    {cs : List FileNodeItem} {cnt : Nat} :
    counts_ok (.mk p d r o cs cnt) = true ↔
      (cnt = if o then total_count cs else 0) ∧ counts_ok_list cs = true := by
  simp [counts_ok]

@[simp] theorem counts_ok_list_nil : counts_ok_list [] = true := rfl

theorem counts_ok_list_cons {c : FileNodeItem} {rest : List FileNodeItem} :
    counts_ok_list (c :: rest) = true ↔
      counts_ok c = true ∧ counts_ok_list rest = true := by
  simp [counts_ok_list]

theorem counts_ok_of_mem {cs : List FileNodeItem} {c : FileNodeItem}
    (hmem : c ∈ cs) (h : counts_ok_list cs = true) : counts_ok c = true := by
  induction cs with
  | nil => cases hmem
  | cons a rest ih =>
    rw [counts_ok_list_cons] at h
    rcases List.mem_cons.mp hmem with h1 | h1
    · exact h1 ▸ h.1
    · exact ih h1 h.2

/-- Under the count-consistency invariant, the cached count of a sibling list
is the length of its displayed flattening. -/
theorem visible_list_of_length (cs : List FileNodeItem)
    (IH : ∀ c ∈ cs, counts_ok c = true →
      (visible_list c).length = c.children_open_count)
    (h : counts_ok_list cs = true) :
    (visible_list_of cs).length = total_count cs := by
  induction cs with
  | nil => rfl
  | cons c rest ih =>
    rw [counts_ok_list_cons] at h
    have hc := IH c (List.mem_cons_self c rest) h.1
    have hr := ih (fun x hx hokx => IH x (List.mem_cons_of_mem c hx) hokx) h.2
    simp [visible_list_of, hc, hr]
    omega

/-- Under the count-consistency invariant, the cached count of a node is the
length of its displayed subtree flattening. -/
theorem visible_list_length (item : FileNodeItem) :
    counts_ok item = true →
    (visible_list item).length = item.children_open_count := by
  induction item using tree_induction with
  | step p d r o cs cnt IH =>
    intro hok
    rw [counts_ok_mk] at hok
    rcases hok with ⟨h1, h2⟩
    cases o with
    | false => simp_all [visible_list]
    | true =>
      simp only [if_true] at h1
      simp only [visible_list, if_true, children_open_count_mk]
      rw [visible_list_of_length cs IH h2]
      omega

/-! ## Characterization of the row resolver -/

/-- Child-loop version of the resolver characterization: scanning a sibling
list whose rows are `i + 1 .. i + total_count cs` finds the target exactly
when it lies in that span, and otherwise ends with the advanced counter. -/
theorem get_go_eq (index : Nat) (cs : List FileNodeItem)
    (IH : ∀ c ∈ cs, counts_ok c = true → ∀ j, get_item_children j index c =
      if j ≤ index ∧ index ≤ j + c.children_open_count then
        (index, (c :: visible_list c)[index - j]?)
      else (j + c.children_open_count, none))
    (hok : counts_ok_list cs = true) :
    ∀ i, get_item_children_go index i cs =
      if i + 1 ≤ index ∧ index ≤ i + total_count cs then
        (index, (visible_list_of cs)[index - i - 1]?)
      else (i + total_count cs, none) := by
  induction cs with
  | nil =>
    intro i
    simp only [get_item_children_go, total_count_nil]
    rw [if_neg (by omega)]
    rfl
  | cons c rest ih =>
    intro i
    have hc : counts_ok c = true := ((counts_ok_list_cons).mp hok).1
    have hrest : counts_ok_list rest = true := ((counts_ok_list_cons).mp hok).2
    have ihc := IH c (List.mem_cons_self c rest) hc
    have ihrest := ih (fun x hx => IH x (List.mem_cons_of_mem c hx)) hrest
    have hlen : (visible_list c).length = c.children_open_count :=
      visible_list_length c hc
    simp only [get_item_children_go, total_count_cons, visible_list_of]
    by_cases hguard : i + c.children_open_count + 1 ≥ index
    · rw [if_pos hguard, ihc (i + 1)]
      by_cases hfound : i + 1 ≤ index ∧ index ≤ i + 1 + c.children_open_count
      · rw [if_pos hfound]
        simp only [if_true]
        rw [if_pos (by omega)]
        have he : index - i - 1 = index - (i + 1) := by omega
        rw [List.getElem?_append_left (by simp [hlen]; omega), he]
      · rw [if_neg hfound]
        rw [if_neg (by omega), ihrest (i + c.children_open_count + 1)]
        rw [if_neg (by omega), if_neg (by omega)]
        rw [Prod.mk.injEq]
        exact ⟨by omega, rfl⟩
    · rw [if_neg hguard, ihrest (i + c.children_open_count + 1)]
      by_cases hub : index ≤ i + c.children_open_count + 1 + total_count rest
      · rw [if_pos (by omega), if_pos (by omega)]
        rw [List.getElem?_append_right (by simp [hlen]; omega)]
        rw [Prod.mk.injEq]
        refine ⟨rfl, ?_⟩
        have he : index - i - 1 - (visible_list c).length - 1 =
            index - (i + c.children_open_count + 1) - 1 := by
          simp [hlen]; omega
        rw [List.length_cons, hlen]
        have he2 : index - i - 1 - (c.children_open_count + 1) =
            index - (i + c.children_open_count + 1) - 1 := by omega
        rw [he2]
      · rw [if_neg (by omega), if_neg (by omega)]
        rw [Prod.mk.injEq]
        exact ⟨by omega, rfl⟩

/-- Characterization of `get_item_children` on count-consistent trees: called
with running counter `i`, the subtree of `item` covers rows
`i .. i + children_open_count`; a target row in that span resolves to the
corresponding entry of the displayed flattening, and any other target leaves
the advanced counter and no node. -/
theorem get_item_children_eq (item : FileNodeItem) :
    counts_ok item = true → ∀ i index,
    get_item_children i index item =
      if i ≤ index ∧ index ≤ i + item.children_open_count then
        (index, (item :: visible_list item)[index - i]?)
      else (i + item.children_open_count, none) := by
  induction item using tree_induction with
  | step p d r o cs cnt IH =>
    intro hok i index
    obtain ⟨h1, h2⟩ := counts_ok_mk.mp hok
    by_cases hii : i = index
    · subst hii
      rw [if_pos ⟨le_refl _, Nat.le_add_right _ _⟩]
      simp [get_item_children]
    · cases o with
      | false =>
        simp at h1
        simp only [get_item_children, if_neg hii, Bool.false_eq_true, if_false]
        rw [if_neg (by simp [h1]; omega)]
        simp [h1]
      | true =>
        simp only [if_true] at h1
        simp only [get_item_children, if_neg hii, if_true]
        rw [get_go_eq index cs (fun c hc hokc j => IH c hc hokc j index) h2 i]
        simp only [children_open_count_mk, visible_list, if_true]
        by_cases hin : i + 1 ≤ index ∧ index ≤ i + total_count cs
        · rw [if_pos (by omega), if_pos (by omega)]
          have he : index - i = (index - i - 1) + 1 := by omega
          rw [h1, he, List.getElem?_cons_succ]
          simp
        · rw [if_neg (by omega), if_neg (by omega), h1]

/-! ## The mutable resolver coincides with the shared one -/

/-- Child-loop equivalence of the two resolvers. -/
theorem get_mut_go_eq_go (index : Nat) (cs : List FileNodeItem)
    (IH : ∀ c ∈ cs, ∀ j,
      get_item_children_mut j index c = get_item_children j index c) :
    ∀ i, get_item_children_mut_go index i cs = get_item_children_go index i cs := by
  induction cs with
  | nil => intro i; rfl
  | cons c rest ih =>
    intro i
    simp only [get_item_children_mut_go, get_item_children_go,
      IH c (List.mem_cons_self c rest) (i + 1),
      ih (fun x hx => IH x (List.mem_cons_of_mem c hx))]

/-- The exclusive-access resolver performs exactly the same traversal as the
shared one: same final counter, same located node. -/
theorem get_item_children_mut_eq (item : FileNodeItem) :
    ∀ i index, get_item_children_mut i index item = get_item_children i index item := by
  induction item using tree_induction with
  | step p d r o cs cnt IH =>
    intro i index
    simp only [get_item_children_mut, get_item_children,
      get_mut_go_eq_go index cs (fun c hc j => IH c hc j index)]

/-! ## Display rows determine resolution -/

/-- List half of the row-membership bridge, parameterized by the node fact for
each member. -/
theorem rows_list_mem_aux (level i : Nat) (cs : List FileNodeItem)
    (IH : ∀ c ∈ cs, counts_ok c = true → ∀ lv j n l r,
      (n, l, r) ∈ rows lv j c →
        j ≤ r ∧ r ≤ j + c.children_open_count ∧
          (c :: visible_list c)[r - j]? = some n)
    (hok : counts_ok_list cs = true) :
    ∀ n l r, (n, l, r) ∈ rows_list level i cs →
      i + 1 ≤ r ∧ r ≤ i + total_count cs ∧
        (visible_list_of cs)[r - i - 1]? = some n := by
  induction cs generalizing i with
  | nil => intro n l r hmem; cases hmem
  | cons c rest ih =>
    intro n l r hmem
    have hc : counts_ok c = true := ((counts_ok_list_cons).mp hok).1
    have hrest : counts_ok_list rest = true := ((counts_ok_list_cons).mp hok).2
    have hlen : (visible_list c).length = c.children_open_count :=
      visible_list_length c hc
    simp only [rows_list] at hmem
    rcases List.mem_append.mp hmem with hm | hm
    · obtain ⟨hb1, hb2, hb3⟩ := IH c (List.mem_cons_self c rest) hc level (i + 1) n l r hm
      refine ⟨by omega, by rw [total_count_cons]; omega, ?_⟩
      rw [visible_list_of,
        List.getElem?_append_left (by simp [hlen]; omega)]
      have he : r - i - 1 = r - (i + 1) := by omega
      rw [he]
      exact hb3
    · obtain ⟨hb1, hb2, hb3⟩ :=
        ih (fun x hx => IH x (List.mem_cons_of_mem c hx)) hrest
          (i := i + 1 + c.children_open_count) n l r hm
      refine ⟨by omega, by rw [total_count_cons]; omega, ?_⟩
      rw [visible_list_of,
        List.getElem?_append_right (by simp [hlen]; omega)]
      have he : r - i - 1 - (c :: visible_list c).length =
          r - (i + 1 + c.children_open_count) - 1 := by
        simp [hlen]; omega
      rw [he]
      exact hb3

/-- On a count-consistent subtree placed at row `j`, a display-row entry
`(n, l, r)` lies within the subtree's row span and the flattening of the
subtree has `n` at offset `r - j`. -/
theorem rows_mem_spec (item : FileNodeItem) :
    counts_ok item = true → ∀ lv j n l r,
      (n, l, r) ∈ rows lv j item →
        j ≤ r ∧ r ≤ j + item.children_open_count ∧
          (item :: visible_list item)[r - j]? = some n := by
  induction item using tree_induction with
  | step p d r o cs cnt IH =>
    intro hok lv j n l rr hmem
    obtain ⟨h1, h2⟩ := counts_ok_mk.mp hok
    simp only [rows] at hmem
    rcases List.mem_cons.mp hmem with hm | hm
    · simp only [Prod.mk.injEq] at hm
      obtain ⟨hn, hl, hr⟩ := hm
      subst hn
      subst hr
      refine ⟨le_refl _, by omega, ?_⟩
      simp
    · cases o with
      | false => simp at hm
      | true =>
        simp only [if_true] at hm h1
        obtain ⟨hb1, hb2, hb3⟩ := rows_list_mem_aux (lv + 1) j cs IH h2 n l rr hm
        refine ⟨by omega, by simp only [children_open_count_mk, h1]; omega, ?_⟩
        have he : rr - j = (rr - j - 1) + 1 := by omega
        simp only [visible_list, if_true]
        rw [he, List.getElem?_cons_succ]
        exact hb3

/-- Standalone form of the row-membership bridge for sibling lists. -/
theorem rows_list_mem_spec (cs : List FileNodeItem)
    (hok : counts_ok_list cs = true) (level i : Nat) (n : FileNodeItem)
    (l r : Nat) (hmem : (n, l, r) ∈ rows_list level i cs) :
    i + 1 ≤ r ∧ r ≤ i + total_count cs ∧
      (visible_list_of cs)[r - i - 1]? = some n :=
  rows_list_mem_aux level i cs
    (fun c _ hokc => rows_mem_spec c hokc) hok n l r hmem

/-! ## The claims -/

/-- Claim C1: on a tree whose cached `children_open_count` fields are
consistent with its open/children state (root workspace open), any visible
node `n` at 1-based depth-first display row `r` — the root occupying no row,
its children starting at row 1 — satisfies
`get_item_children 0 r root = (r, some n)`: resolving a visible node's own
row yields that node. -/
theorem claim_c1 (root n : FileNodeItem) (l r : Nat)
    (hok : counts_ok root = true) (hop : root.is_open = true)
    (hmem : (n, l, r) ∈ rows_list 1 0 root.children) :
    get_item_children 0 r root = (r, some n) := by
  rcases root with ⟨p, d, rd, o, cs, cnt⟩
  simp only [is_open_mk] at hop
  subst hop
  obtain ⟨h1, h2⟩ := counts_ok_mk.mp hok
  simp only [if_true] at h1
  simp only [children_mk] at hmem
  obtain ⟨hb1, hb2, hb3⟩ := rows_list_mem_spec cs h2 1 0 n l r hmem
  rw [get_item_children_eq _ hok 0 r,
    if_pos (by simp only [children_open_count_mk, h1]; omega)]
  simp only [visible_list, if_true]
  have he : r - 0 = (r - 1) + 1 := by omega
  rw [he, List.getElem?_cons_succ]
  simp only [Nat.sub_zero] at hb3
  rw [hb3]

/-- Witness for claim C1 on the concrete tree `witW`: the file at display row
2 is resolved back from row 2. -/
theorem claim_c1_witness :
    counts_ok witW = true ∧ witW.is_open = true ∧
      (witFileC, 2, 2) ∈ rows_list 1 0 witW.children ∧
      get_item_children 0 2 witW = (2, some witFileC) := by
  have hmem : (witFileC, 2, 2) ∈ rows_list 1 0 witW.children := by
    rw [show rows_list 1 0 witW.children =
      [(witDirA, 1, 1), (witFileC, 2, 2), (witFileB, 1, 3)] from rfl]
    exact List.mem_cons_of_mem _ (List.mem_cons_self _ _)
  exact ⟨rfl, rfl, hmem, claim_c1 witW witFileC 2 2 rfl rfl hmem⟩

/-- Claim C3: the exclusive-access resolver `get_item_children_mut` has
exactly the semantics of the shared resolver `get_item_children` on every
tree and every counter/target pair: same final row counter, same located
node. -/
theorem claim_c3 (item : FileNodeItem) (i index : Nat) :
    get_item_children_mut i index item = get_item_children i index item :=
  get_item_children_mut_eq item i index

/-- Claim C4: on a count-consistent tree, a target row beyond the total
number of visible rows resolves to no node, and a left mouse click on such a
row mutates nothing and submits no command — out-of-range addressing is an
absent result treated as a no-op. -/
theorem claim_c4 (ws : FileNodeItem) (index : Nat)
    (hok : counts_ok ws = true) (hgt : ws.children_open_count < index) :
    (get_item_children 0 index ws).2 = none ∧
      mouse_left_down ws index = (ws, []) := by
  have h1 : get_item_children 0 index ws = (ws.children_open_count, none) := by
    rw [get_item_children_eq ws hok 0 index, if_neg (by omega)]
    simp
  refine ⟨by rw [h1], ?_⟩
  unfold mouse_left_down
  rw [get_item_children_mut_eq, h1]

/-- Witness for claim C4: row 9 is beyond the three visible rows of `witW`. -/
theorem claim_c4_witness :
    counts_ok witW = true ∧ witW.children_open_count < 9 ∧
      (get_item_children 0 9 witW).2 = none ∧
      mouse_left_down witW 9 = (witW, []) := by
  obtain ⟨h1, h2⟩ := claim_c4 witW 9 rfl (by decide)
  exact ⟨rfl, by decide, h1, h2⟩

/-- Claim C9: a left mouse click on a row resolving to a non-directory node
leaves the tree unchanged and submits exactly two commands, an `OpenFile` and
an `ActiveFileChanged`, both carrying that node's path. -/
theorem claim_c9 (ws n : FileNodeItem) (index : Nat)
    (hres : (get_item_children_mut 0 index ws).2 = some n)
    (hfile : n.is_dir = false) :
    mouse_left_down ws index =
      (ws, [UICommand.OpenFile n.path_buf,
            UICommand.ActiveFileChanged n.path_buf]) := by
  unfold mouse_left_down
  rw [hres]
  simp [hfile]

/-- Witness for claim C9: clicking row 3 of `witW` (the file `witFileB`). -/
theorem claim_c9_witness :
    (get_item_children_mut 0 3 witW).2 = some witFileB ∧
      witFileB.is_dir = false ∧
      mouse_left_down witW 3 =
        (witW, [UICommand.OpenFile witFileB.path_buf,
                UICommand.ActiveFileChanged witFileB.path_buf]) :=
  ⟨rfl, rfl, claim_c9 witW witFileB 3 rfl rfl⟩

/-- Claim C10: while the naming overlay is active and the edit input is not
focused, a `MouseDown`, `KeyUp` or `KeyDown` the input did not handle ends
the naming with `apply_naming = true`; while the input is focused, Enter ends
it with `apply_naming = true` and Escape with `apply_naming = false`. -/
theorem claim_c10 (ev : ExplorerEvent) (k : ExplorerKey)
    (hev : ev = ExplorerEvent.MouseDown ∨ ev = ExplorerEvent.KeyUp ∨
      ev = ExplorerEvent.KeyDown k) :
    naming_end_commands ev true false false = [⟨true⟩] ∧
      (∀ naming handled,
        naming_end_commands (.KeyDown .Enter) naming true handled = [⟨true⟩]) ∧
      (∀ naming handled,
        naming_end_commands (.KeyDown .Escape) naming true handled = [⟨false⟩]) := by
  refine ⟨?_, ?_, ?_⟩
  · rcases hev with h | h | h <;> subst h <;> rfl
  · intro naming handled
    cases naming <;> cases handled <;> rfl
  · intro naming handled
    cases naming <;> cases handled <;> rfl

/-- Witness for claim C10 at the concrete event `MouseDown`. -/
theorem claim_c10_witness :
    naming_end_commands ExplorerEvent.MouseDown true false false = [⟨true⟩] ∧
      naming_end_commands (.KeyDown .Enter) true true false = [⟨true⟩] ∧
      naming_end_commands (.KeyDown .Escape) true true false = [⟨false⟩] := by
  obtain ⟨h1, h2, h3⟩ :=
    claim_c10 ExplorerEvent.MouseDown ExplorerKey.Enter (Or.inl rfl)
  exact ⟨h1, h2 true false, h3 true false⟩

/-! ## The positional updater follows the resolver's traversal -/

/-- List half: `mutate_go` reaches the same final counter as
`get_item_children_go`, and when the target is not found the list comes back
unchanged. -/
theorem mutate_go_spec (index : Nat) (f : FileNodeItem → FileNodeItem)
    (cs : List FileNodeItem)
    (IH : ∀ c ∈ cs, ∀ j,
      (mutate_at j index f c).1 = (get_item_children j index c).1 ∧
        ((get_item_children j index c).1 ≠ index →
          (mutate_at j index f c).2 = c)) :
    ∀ i, (mutate_go index f i cs).1 = (get_item_children_go index i cs).1 ∧
      ((get_item_children_go index i cs).1 ≠ index →
        (mutate_go index f i cs).2 = cs) := by
  induction cs with
  | nil => intro i; exact ⟨rfl, fun _ => rfl⟩
  | cons c rest ih =>
    intro i
    have ihc := IH c (List.mem_cons_self c rest) (i + 1)
    have ihrest := ih (fun x hx => IH x (List.mem_cons_of_mem c hx))
      (i + c.children_open_count + 1)
    simp only [mutate_go, get_item_children_go]
    by_cases hguard : i + c.children_open_count + 1 ≥ index
    · rw [if_pos hguard, if_pos hguard]
      by_cases hfound : (get_item_children (i + 1) index c).1 = index
      · have hmf : (mutate_at (i + 1) index f c).1 = index := by
          rw [ihc.1]; exact hfound
        rw [if_pos hmf, if_pos hfound]
        exact ⟨hmf.trans hfound.symm, fun hne => absurd hfound hne⟩
      · have hmf : ¬(mutate_at (i + 1) index f c).1 = index := by
          rw [ihc.1]; exact hfound
        rw [if_neg hmf, if_neg hfound]
        exact ⟨ihrest.1, fun hne => by rw [ihrest.2 hne]⟩
    · rw [if_neg hguard, if_neg hguard]
      exact ⟨ihrest.1, fun hne => by rw [ihrest.2 hne]⟩

/-- `mutate_at` reaches the same final counter as `get_item_children`, and
when the target row is not found the tree comes back unchanged. -/
theorem mutate_at_spec (item : FileNodeItem) :
    ∀ f i index,
      (mutate_at i index f item).1 = (get_item_children i index item).1 ∧
        ((get_item_children i index item).1 ≠ index →
          (mutate_at i index f item).2 = item) := by
  induction item using tree_induction with
  | step p d r o cs cnt IH =>
    intro f i index
    by_cases hii : i = index
    · subst hii
      simp only [mutate_at, get_item_children, if_pos rfl]
      exact ⟨rfl, fun hne => absurd rfl hne⟩
    · simp only [mutate_at, get_item_children, if_neg hii]
      cases o with
      | false => exact ⟨rfl, fun _ => rfl⟩
      | true =>
        simp only [if_true]
        have hgo := mutate_go_spec index f cs (fun c hc j => IH c hc f j index) i
        by_cases hfound : (get_item_children_go index i cs).1 = index
        · have hmf : (mutate_go index f i cs).1 = index := by
            rw [hgo.1]; exact hfound
          rw [if_pos hmf]
          exact ⟨hmf.trans hfound.symm, fun hne => absurd hfound hne⟩
        · have hmf : ¬(mutate_go index f i cs).1 = index := by
            rw [hgo.1]; exact hfound
          rw [if_neg hmf]
          exact ⟨hgo.1, fun hne => by rw [hgo.2 hne]⟩

/-! ## Preservation of the open-implies-read invariant -/

@[simp] theorem open_read_ok_list_nil : open_read_ok_list [] = true := rfl

theorem open_read_ok_list_cons {c : FileNodeItem} {rest : List FileNodeItem} :
    open_read_ok_list (c :: rest) = true ↔
      open_read_ok c = true ∧ open_read_ok_list rest = true := by
  simp [open_read_ok_list]

theorem open_read_ok_mk {p : List String} {d r o : Bool}
    {cs : List FileNodeItem} {cnt : Nat} :
    open_read_ok (.mk p d r o cs cnt) = true ↔
      (o = true → r = true) ∧ open_read_ok_list cs = true := by
  simp [open_read_ok]
  cases o <;> cases r <;> simp

/-- `refresh_count` only rewrites the cached count, so it preserves the
open-implies-read invariant. -/
theorem open_read_ok_refresh (m : FileNodeItem) :
    open_read_ok (refresh_count m) = open_read_ok m := by
  cases m
  rfl

/-- List half of invariant preservation for the positional updater. -/
theorem mutate_go_inv (index : Nat) (f : FileNodeItem → FileNodeItem)
    (cs : List FileNodeItem)
    (IH : ∀ c ∈ cs, open_read_ok c = true → ∀ j,
      open_read_ok (mutate_at j index f c).2 = true)
    (h : open_read_ok_list cs = true) :
    ∀ i, open_read_ok_list (mutate_go index f i cs).2 = true := by
  induction cs with
  | nil => intro i; rfl
  | cons c rest ih =>
    intro i
    obtain ⟨hc, hrest⟩ := open_read_ok_list_cons.mp h
    have ihrest := ih (fun x hx => IH x (List.mem_cons_of_mem c hx)) hrest
      (i + c.children_open_count + 1)
    simp only [mutate_go]
    by_cases hguard : i + c.children_open_count + 1 ≥ index
    · rw [if_pos hguard]
      by_cases hfound : (mutate_at (i + 1) index f c).1 = index
      · rw [if_pos hfound]
        exact open_read_ok_list_cons.mpr
          ⟨IH c (List.mem_cons_self c rest) hc (i + 1), hrest⟩
      · rw [if_neg hfound]
        exact open_read_ok_list_cons.mpr ⟨hc, ihrest⟩
    · rw [if_neg hguard]
      exact open_read_ok_list_cons.mpr ⟨hc, ihrest⟩

/-- If the applied mutation preserves the open-implies-read invariant on the
node it touches, the positional updater preserves it on the whole tree. -/
theorem mutate_at_inv (f : FileNodeItem → FileNodeItem)
    (Hf : ∀ m, open_read_ok m = true → open_read_ok (f m) = true)
    (item : FileNodeItem) :
    open_read_ok item = true → ∀ i index,
      open_read_ok (mutate_at i index f item).2 = true := by
  induction item using tree_induction with
  | step p d r o cs cnt IH =>
    intro h i index
    by_cases hii : i = index
    · subst hii
      have hm : mutate_at i i f (FileNodeItem.mk p d r o cs cnt) =
          (i, refresh_count (f (FileNodeItem.mk p d r o cs cnt))) := by
        simp [mutate_at]
      rw [hm]
      show open_read_ok (refresh_count (f (FileNodeItem.mk p d r o cs cnt))) = true
      rw [open_read_ok_refresh]
      exact Hf _ h
    · simp only [mutate_at, if_neg hii]
      obtain ⟨hor, hlist⟩ := open_read_ok_mk.mp h
      cases o with
      | false => simpa using h
      | true =>
        simp only [if_true]
        have hgo := mutate_go_inv index f cs
          (fun c hc hokc j => IH c hc hokc j index) hlist i
        by_cases hfound : (mutate_go index f i cs).1 = index
        · rw [if_pos hfound]
          rw [open_read_ok_refresh]
          exact open_read_ok_mk.mpr ⟨hor, hgo⟩
        · rw [if_neg hfound]
          exact open_read_ok_mk.mpr ⟨hor, hgo⟩

/-- The guarded click toggle preserves the invariant on the toggled node. -/
theorem toggle_if_read_inv (m : FileNodeItem) (h : open_read_ok m = true) :
    open_read_ok (toggle_if_read m) = true := by
  cases m with
  | mk p d r o cs cnt =>
    obtain ⟨hor, hlist⟩ := open_read_ok_mk.mp h
    simp only [toggle_if_read, set_is_open, read_mk, is_open_mk]
    cases r with
    | false => simpa using h
    | true =>
      simp only [if_true]
      exact open_read_ok_mk.mpr ⟨fun _ => rfl, hlist⟩

/-- The guarded expand mutation preserves the invariant on its node. -/
theorem open_if_read_inv (m : FileNodeItem) (h : open_read_ok m = true) :
    open_read_ok (open_if_read m) = true := by
  cases m with
  | mk p d r o cs cnt =>
    obtain ⟨hor, hlist⟩ := open_read_ok_mk.mp h
    simp only [open_if_read, set_is_open, read_mk]
    cases r with
    | false => simpa using h
    | true =>
      simp only [if_true]
      exact open_read_ok_mk.mpr ⟨fun _ => rfl, hlist⟩

/-- Claim C6: every `open`-mutating operation in the explorer preserves the
invariant that an open node has been read: the left-click handler only
toggles `open` on already-read directories (issuing a `read_dir` request
otherwise), and `expand_dir` only sets `open = true` on already-read
directories (deferring otherwise to load completion). -/
theorem claim_c6 (ws : FileNodeItem) (index : Nat)
    (h : open_read_ok ws = true) :
    open_read_ok (mouse_left_down ws index).1 = true ∧
      open_read_ok (expand_dir ws index).1 = true := by
  constructor
  · unfold mouse_left_down
    rcases hres : (get_item_children_mut 0 index ws).2 with _ | n
    · simpa using h
    · simp only
      by_cases hdir : n.is_dir = true
      · rw [if_pos hdir]
        exact mutate_at_inv toggle_if_read toggle_if_read_inv ws h 0 index
      · rw [if_neg hdir]
        simpa using h
  · unfold expand_dir
    rcases hres : (get_item_children_mut 0 index ws).2 with _ | n
    · simpa using h
    · simp only
      by_cases hdir : n.is_dir = true
      · rw [if_pos hdir]
        by_cases hread : n.read = true
        · rw [if_pos hread]
          exact mutate_at_inv open_if_read open_if_read_inv ws h 0 index
        · rw [if_neg hread]
          exact mutate_at_inv open_if_read open_if_read_inv ws h 0 index
      · rw [if_neg hdir]
        simpa using h

/-- Witness for claim C6 on the concrete tree `witW` at row 1. -/
theorem claim_c6_witness :
    open_read_ok witW = true ∧
      open_read_ok (mouse_left_down witW 1).1 = true ∧
      open_read_ok (expand_dir witW 1).1 = true := by
  obtain ⟨h1, h2⟩ := claim_c6 witW 1 rfl
  exact ⟨rfl, h1, h2⟩

/-! ## Field-preservation facts -/

theorem refresh_count_is_dir (m : FileNodeItem) :
    (refresh_count m).is_dir = m.is_dir := by cases m; rfl

theorem refresh_count_read (m : FileNodeItem) :
    (refresh_count m).read = m.read := by cases m; rfl

theorem refresh_count_children (m : FileNodeItem) :
    (refresh_count m).children = m.children := by cases m; rfl

theorem toggle_if_read_is_dir (m : FileNodeItem) :
    (toggle_if_read m).is_dir = m.is_dir := by
  cases m with
  | mk p d r o cs cnt => cases r <;> rfl

theorem toggle_if_read_read (m : FileNodeItem) :
    (toggle_if_read m).read = m.read := by
  cases m with
  | mk p d r o cs cnt => cases r <;> rfl

theorem toggle_if_read_children (m : FileNodeItem) :
    (toggle_if_read m).children = m.children := by
  cases m with
  | mk p d r o cs cnt => cases r <;> rfl

theorem open_if_read_children (m : FileNodeItem) :
    (open_if_read m).children = m.children := by
  cases m with
  | mk p d r o cs cnt => cases r <;> rfl

theorem counts_ok_refresh (m : FileNodeItem)
    (h : counts_ok_list m.children = true) :
    counts_ok (refresh_count m) = true := by
  cases m with
  | mk p d r o cs cnt =>
    simp only [children_mk] at h
    exact counts_ok_mk.mpr ⟨rfl, h⟩


/-! ## Resolving the target row after a positional update -/

/-- List half: when the sibling scan finds the target, the positional update
ends at the target row, keeps the sibling list count-consistent, and
re-resolving the target row afterwards yields the mutated node (its count
refreshed). -/
theorem mutate_found_go (f : FileNodeItem → FileNodeItem)
    (index : Nat) (cs : List FileNodeItem)
    (IH : ∀ c ∈ cs, counts_ok c = true → ∀ j n,
      (get_item_children j index c).2 = some n →
        (mutate_at j index f c).1 = index ∧
        counts_ok (mutate_at j index f c).2 = true ∧
        get_item_children j index (mutate_at j index f c).2 =
          (index, some (refresh_count (f n))))
    (hok : counts_ok_list cs = true) :
    ∀ i n, (get_item_children_go index i cs).2 = some n →
      (mutate_go index f i cs).1 = index ∧
      counts_ok_list (mutate_go index f i cs).2 = true ∧
      get_item_children_go index i (mutate_go index f i cs).2 =
        (index, some (refresh_count (f n))) := by
  induction cs with
  | nil => intro i n h; simp [get_item_children_go] at h
  | cons c rest ih =>
    intro i n hsome
    have hc : counts_ok c = true := ((counts_ok_list_cons).mp hok).1
    have hrest : counts_ok_list rest = true := ((counts_ok_list_cons).mp hok).2
    have ihrest := ih (fun x hx => IH x (List.mem_cons_of_mem c hx)) hrest
    have hcnt := (mutate_at_spec c f (i + 1) index).1
    simp only [get_item_children_go] at hsome
    by_cases hguard : i + c.children_open_count + 1 ≥ index
    · rw [if_pos hguard] at hsome
      by_cases hf1 : (get_item_children (i + 1) index c).1 = index
      · rw [if_pos hf1] at hsome
        obtain ⟨ac, bc, cc⟩ := IH c (List.mem_cons_self c rest) hc (i + 1) n hsome
        have hmf : (mutate_at (i + 1) index f c).1 = index := by
          rw [hcnt]; exact hf1
        have hmeq : mutate_go index f i (c :: rest) =
            ((mutate_at (i + 1) index f c).1,
              (mutate_at (i + 1) index f c).2 :: rest) := by
          simp only [mutate_go]
          rw [if_pos hguard, if_pos hmf]
        rw [hmeq]
        -- the mutated child still spans the target row
        have hbound : i + 1 ≤ index ∧
            index ≤ i + 1 + (mutate_at (i + 1) index f c).2.children_open_count := by
          have hres1 := get_item_children_eq (mutate_at (i + 1) index f c).2 bc
            (i + 1) index
          by_cases hin : i + 1 ≤ index ∧
              index ≤ i + 1 + (mutate_at (i + 1) index f c).2.children_open_count
          · exact hin
          · rw [if_neg hin] at hres1
            rw [hres1] at cc
            simp at cc
        refine ⟨hmf, counts_ok_list_cons.mpr ⟨bc, hrest⟩, ?_⟩
        simp only [get_item_children_go]
        rw [if_pos (by omega), cc]
        simp
      · rw [if_neg hf1] at hsome
        obtain ⟨ar, br, cr⟩ := ihrest (i + c.children_open_count + 1) n hsome
        have hmf : ¬(mutate_at (i + 1) index f c).1 = index := by
          rw [hcnt]; exact hf1
        have hmeq : mutate_go index f i (c :: rest) =
            ((mutate_go index f (i + c.children_open_count + 1) rest).1,
              c :: (mutate_go index f (i + c.children_open_count + 1) rest).2) := by
          simp only [mutate_go]
          rw [if_pos hguard, if_neg hmf]
        rw [hmeq]
        refine ⟨ar, counts_ok_list_cons.mpr ⟨hc, br⟩, ?_⟩
        simp only [get_item_children_go]
        rw [if_pos hguard, if_neg hf1]
        exact cr
    · rw [if_neg hguard] at hsome
      obtain ⟨ar, br, cr⟩ := ihrest (i + c.children_open_count + 1) n hsome
      have hmeq : mutate_go index f i (c :: rest) =
          ((mutate_go index f (i + c.children_open_count + 1) rest).1,
            c :: (mutate_go index f (i + c.children_open_count + 1) rest).2) := by
        simp only [mutate_go]
        rw [if_neg hguard]
      rw [hmeq]
      refine ⟨ar, counts_ok_list_cons.mpr ⟨hc, br⟩, ?_⟩
      simp only [get_item_children_go]
      rw [if_neg hguard]
      exact cr

/-- Resolving the running counter itself always returns the node at hand. -/
theorem get_item_children_self (i : Nat) (item : FileNodeItem) :
    get_item_children i i item = (i, some item) := by
  cases item
  simp [get_item_children]

/-- When the resolver finds node `n` at the target row on a count-consistent
tree, the positional updater ends at the target row, keeps the tree
count-consistent, and re-resolving the target row in the updated tree yields
`refresh_count (f n)` — provided `f` leaves the children alone. -/
theorem mutate_found_spec (f : FileNodeItem → FileNodeItem)
    (Hf : ∀ m, (f m).children = m.children)
    (item : FileNodeItem) :
    counts_ok item = true → ∀ i index n,
      (get_item_children i index item).2 = some n →
        (mutate_at i index f item).1 = index ∧
        counts_ok (mutate_at i index f item).2 = true ∧
        get_item_children i index (mutate_at i index f item).2 =
          (index, some (refresh_count (f n))) := by
  induction item using tree_induction with
  | step p d rd o cs cnt IH =>
    intro hok i index n hsome
    obtain ⟨h1, h2⟩ := counts_ok_mk.mp hok
    by_cases hii : i = index
    · subst hii
      simp [get_item_children] at hsome
      subst hsome
      have hm : mutate_at i i f (FileNodeItem.mk p d rd o cs cnt) =
          (i, refresh_count (f (FileNodeItem.mk p d rd o cs cnt))) := by
        simp [mutate_at]
      rw [hm]
      refine ⟨rfl, ?_, ?_⟩
      · show counts_ok
          (refresh_count (f (FileNodeItem.mk p d rd o cs cnt))) = true
        apply counts_ok_refresh
        rw [Hf]
        simpa using h2
      · show get_item_children i i
            (refresh_count (f (FileNodeItem.mk p d rd o cs cnt))) = _
        exact get_item_children_self i _
    · cases o with
      | false =>
        exfalso
        simp [get_item_children, if_neg hii] at hsome
      | true =>
        simp only [if_true] at h1
        have hgetnode :
            get_item_children i index (FileNodeItem.mk p d rd true cs cnt) =
              get_item_children_go index i cs := by
          simp [get_item_children, if_neg hii]
        rw [hgetnode] at hsome
        obtain ⟨ag, bg, cg⟩ := mutate_found_go f index cs
          (fun c hcm hokc j m hs => IH c hcm hokc j index m hs) h2 i n hsome
        have hmeq : mutate_at i index f (FileNodeItem.mk p d rd true cs cnt) =
            (index, refresh_count (FileNodeItem.mk p d rd true
              (mutate_go index f i cs).2 cnt)) := by
          simp only [mutate_at, if_neg hii, if_true]
          rw [if_pos ag, ag]
        rw [hmeq]
        refine ⟨rfl, ?_, ?_⟩
        · show counts_ok (refresh_count (FileNodeItem.mk p d rd true
            (mutate_go index f i cs).2 cnt)) = true
          apply counts_ok_refresh
          simpa using bg
        · show get_item_children i index
              (refresh_count (FileNodeItem.mk p d rd true
                (mutate_go index f i cs).2 cnt)) = _
          simp only [refresh_count, get_item_children, if_neg hii, if_true]
          exact cg

/-- Claim C8: `expand_dir` runs its `on_finished` continuation exactly once
and synchronously whenever no load is required — unresolved row,
non-directory, or already-read directory (which is also opened) — and only
for an unread directory attaches it to the asynchronous `read_dir_cb` request
instead. -/
theorem claim_c8 (ws : FileNodeItem) (index : Nat)
    (hok : counts_ok ws = true) :
    ((get_item_children 0 index ws).2 = none →
      expand_dir ws index = (ws, ExpandOutcome.finished_now)) ∧
    (∀ n, (get_item_children 0 index ws).2 = some n →
      (n.is_dir = false →
        expand_dir ws index = (ws, ExpandOutcome.finished_now)) ∧
      (n.is_dir = true → n.read = false →
        (expand_dir ws index).2 = ExpandOutcome.deferred_to_load) ∧
      (n.is_dir = true → n.read = true →
        (expand_dir ws index).2 = ExpandOutcome.finished_now ∧
        (get_item_children 0 index (expand_dir ws index).1).2 =
          some (refresh_count (set_is_open true n)))) := by
  constructor
  · intro hres
    unfold expand_dir
    rw [get_item_children_mut_eq, hres]
  · intro n hres
    refine ⟨?_, ?_, ?_⟩
    · intro hdir
      unfold expand_dir
      rw [get_item_children_mut_eq, hres]
      simp [hdir]
    · intro hdir hread
      unfold expand_dir
      rw [get_item_children_mut_eq, hres]
      simp [hdir, hread]
    · intro hdir hread
      have hstep : expand_dir ws index =
          ((mutate_at 0 index open_if_read ws).2, ExpandOutcome.finished_now) := by
        unfold expand_dir
        rw [get_item_children_mut_eq, hres]
        simp [hdir, hread]
      obtain ⟨ha, hb, hcc⟩ :=
        mutate_found_spec open_if_read open_if_read_children ws hok 0 index n hres
      rw [hstep]
      refine ⟨rfl, ?_⟩
      show (get_item_children 0 index (mutate_at 0 index open_if_read ws).2).2 = _
      rw [hcc]
      have hopen : open_if_read n = set_is_open true n := by
        simp [open_if_read, hread]
      rw [hopen]

/-- Witness for claim C8: on `witWU`, expanding the unread directory at row 1
defers the continuation to the load; expanding the file row 2 runs it now. -/
theorem claim_c8_witness :
    counts_ok witWU = true ∧
      (expand_dir witWU 1).2 = ExpandOutcome.deferred_to_load ∧
      expand_dir witWU 2 = (witWU, ExpandOutcome.finished_now) := by
  have h1 := claim_c8 witWU 1 rfl
  have h2 := claim_c8 witWU 2 rfl
  exact ⟨rfl, ((h1.2 witDirU rfl).2.1) rfl rfl, ((h2.2 witFileB rfl).1) rfl⟩

/-! ## Double toggle restores a count-consistent tree -/

/-- List half: toggling the found directory twice through the positional
updater restores the original sibling list, ending at the target row. -/
theorem toggle_twice_go (index : Nat) (cs : List FileNodeItem)
    (IH : ∀ c ∈ cs, counts_ok c = true → ∀ j n,
      (get_item_children j index c).2 = some n → n.read = true →
        mutate_at j index toggle_if_read
          (mutate_at j index toggle_if_read c).2 = (index, c))
    (hok : counts_ok_list cs = true) :
    ∀ i n, (get_item_children_go index i cs).2 = some n → n.read = true →
      mutate_go index toggle_if_read i
        (mutate_go index toggle_if_read i cs).2 = (index, cs) := by
  induction cs with
  | nil => intro i n h; simp [get_item_children_go] at h
  | cons c rest ih =>
    intro i n hsome hread
    have hc : counts_ok c = true := ((counts_ok_list_cons).mp hok).1
    have hrest : counts_ok_list rest = true := ((counts_ok_list_cons).mp hok).2
    have ihrest := ih (fun x hx => IH x (List.mem_cons_of_mem c hx)) hrest
    have hcnt := (mutate_at_spec c toggle_if_read (i + 1) index).1
    simp only [get_item_children_go] at hsome
    by_cases hguard : i + c.children_open_count + 1 ≥ index
    · rw [if_pos hguard] at hsome
      by_cases hf1 : (get_item_children (i + 1) index c).1 = index
      · rw [if_pos hf1] at hsome
        obtain ⟨ac, bc, cc⟩ := mutate_found_spec toggle_if_read
          toggle_if_read_children c hc (i + 1) index n hsome
        have hmf : (mutate_at (i + 1) index toggle_if_read c).1 = index := by
          rw [hcnt]; exact hf1
        have hmeq : mutate_go index toggle_if_read i (c :: rest) =
            ((mutate_at (i + 1) index toggle_if_read c).1,
              (mutate_at (i + 1) index toggle_if_read c).2 :: rest) := by
          simp only [mutate_go]
          rw [if_pos hguard, if_pos hmf]
        rw [hmeq]
        have hbound : i + 1 ≤ index ∧ index ≤ i + 1 +
            (mutate_at (i + 1) index toggle_if_read c).2.children_open_count := by
          have hres1 := get_item_children_eq
            (mutate_at (i + 1) index toggle_if_read c).2 bc (i + 1) index
          by_cases hin : i + 1 ≤ index ∧ index ≤ i + 1 +
              (mutate_at (i + 1) index toggle_if_read c).2.children_open_count
          · exact hin
          · rw [if_neg hin] at hres1
            rw [hres1] at cc
            simp at cc
        have hsecond := IH c (List.mem_cons_self c rest) hc (i + 1) n hsome hread
        simp only [mutate_go]
        rw [if_pos (by omega), hsecond]
        simp
      · rw [if_neg hf1] at hsome
        have hmf : ¬(mutate_at (i + 1) index toggle_if_read c).1 = index := by
          rw [hcnt]; exact hf1
        have hmeq : mutate_go index toggle_if_read i (c :: rest) =
            ((mutate_go index toggle_if_read
                (i + c.children_open_count + 1) rest).1,
              c :: (mutate_go index toggle_if_read
                (i + c.children_open_count + 1) rest).2) := by
          simp only [mutate_go]
          rw [if_pos hguard, if_neg hmf]
        rw [hmeq]
        simp only [mutate_go]
        rw [if_pos hguard, if_neg hmf,
          ihrest (i + c.children_open_count + 1) n hsome hread]
    · rw [if_neg hguard] at hsome
      have hmeq : mutate_go index toggle_if_read i (c :: rest) =
          ((mutate_go index toggle_if_read
              (i + c.children_open_count + 1) rest).1,
            c :: (mutate_go index toggle_if_read
              (i + c.children_open_count + 1) rest).2) := by
        simp only [mutate_go]
        rw [if_neg hguard]
      rw [hmeq]
      simp only [mutate_go]
      rw [if_neg hguard, ihrest (i + c.children_open_count + 1) n hsome hread]

/-- Toggling the resolved read directory twice through the positional updater
restores a count-consistent tree exactly, ending at the target row. -/
theorem toggle_twice_spec (item : FileNodeItem) :
    counts_ok item = true → ∀ i index n,
      (get_item_children i index item).2 = some n → n.read = true →
        mutate_at i index toggle_if_read
          (mutate_at i index toggle_if_read item).2 = (index, item) := by
  induction item using tree_induction with
  | step p d rd o cs cnt IH =>
    intro hok i index n hsome hread
    obtain ⟨h1, h2⟩ := counts_ok_mk.mp hok
    by_cases hii : i = index
    · subst hii
      simp [get_item_children] at hsome
      subst hsome
      simp only [read_mk] at hread
      subst hread
      simp [mutate_at, toggle_if_read, set_is_open, refresh_count,
        Bool.not_not, ← h1]
    · cases o with
      | false =>
        exfalso
        simp [get_item_children, if_neg hii] at hsome
      | true =>
        simp only [if_true] at h1
        have hgetnode :
            get_item_children i index (FileNodeItem.mk p d rd true cs cnt) =
              get_item_children_go index i cs := by
          simp [get_item_children, if_neg hii]
        rw [hgetnode] at hsome
        have hgo1 := (mutate_go_spec index toggle_if_read cs
          (fun c _ j => mutate_at_spec c toggle_if_read j index) i).1
        have hgcounter : (get_item_children_go index i cs).1 = index := by
          have hres := get_go_eq index cs
            (fun c _ hokc j => get_item_children_eq c hokc j index) h2 i
          by_cases hin : i + 1 ≤ index ∧ index ≤ i + total_count cs
          · rw [hres, if_pos hin]
          · exfalso
            rw [hres, if_neg hin] at hsome
            simp at hsome
        have ag : (mutate_go index toggle_if_read i cs).1 = index := by
          rw [hgo1]; exact hgcounter
        have hmeq1 :
            mutate_at i index toggle_if_read
              (FileNodeItem.mk p d rd true cs cnt) =
            (index, refresh_count (FileNodeItem.mk p d rd true
              (mutate_go index toggle_if_read i cs).2 cnt)) := by
          simp only [mutate_at, if_neg hii, if_true]
          rw [if_pos ag, ag]
        rw [hmeq1]
        have hsecond := toggle_twice_go index cs
          (fun c hc hokc j m hs hr => IH c hc hokc j index m hs hr)
          h2 i n hsome hread
        show mutate_at i index toggle_if_read
          (refresh_count (FileNodeItem.mk p d rd true
            (mutate_go index toggle_if_read i cs).2 cnt)) = _
        simp only [refresh_count]
        simp only [mutate_at, if_neg hii, if_true]
        rw [hsecond]
        simp [refresh_count, ← h1]

/-- Claim C7: clicking a visible, already-read directory row twice — each
click toggling `open` and recomputing the ancestor counts, as the handler
does — restores the tree to its prior state exactly, so the paint traversal
sees an identical display-row sequence. -/
theorem claim_c7 (ws n : FileNodeItem) (index : Nat)
    (hok : counts_ok ws = true)
    (hres : (get_item_children 0 index ws).2 = some n)
    (hdir : n.is_dir = true) (hread : n.read = true) :
    (mouse_left_down (mouse_left_down ws index).1 index).1 = ws ∧
      rows_list 1 0 (mouse_left_down (mouse_left_down ws index).1 index).1.children =
        rows_list 1 0 ws.children := by
  obtain ⟨ha, hb, hcc⟩ :=
    mutate_found_spec toggle_if_read toggle_if_read_children ws hok 0 index n hres
  have step1 : (mouse_left_down ws index).1 =
      (mutate_at 0 index toggle_if_read ws).2 := by
    unfold mouse_left_down
    rw [get_item_children_mut_eq, hres]
    simp [hdir]
  have hres2 : (get_item_children 0 index
      (mutate_at 0 index toggle_if_read ws).2).2 =
        some (refresh_count (toggle_if_read n)) := by
    rw [hcc]
  have hdir2 : (refresh_count (toggle_if_read n)).is_dir = true := by
    rw [refresh_count_is_dir, toggle_if_read_is_dir]
    exact hdir
  have step2 : (mouse_left_down (mutate_at 0 index toggle_if_read ws).2 index).1 =
      (mutate_at 0 index toggle_if_read
        (mutate_at 0 index toggle_if_read ws).2).2 := by
    unfold mouse_left_down
    rw [get_item_children_mut_eq, hres2]
    simp [hdir2]
  have hfinal : (mutate_at 0 index toggle_if_read
      (mutate_at 0 index toggle_if_read ws).2).2 = ws := by
    rw [toggle_twice_spec ws hok 0 index n hres hread]
  rw [step1, step2, hfinal]
  exact ⟨rfl, rfl⟩

/-- Witness for claim C7: double-clicking the open directory row 1 of `witW`
restores the original tree. -/
theorem claim_c7_witness :
    counts_ok witW = true ∧
      (get_item_children 0 1 witW).2 = some witDirA ∧
      witDirA.is_dir = true ∧ witDirA.read = true ∧
      (mouse_left_down (mouse_left_down witW 1).1 1).1 = witW := by
  obtain ⟨h1, h2⟩ := claim_c7 witW witDirA 1 rfl rfl rfl rfl
  exact ⟨rfl, rfl, rfl, rfl, h1⟩

/-! ## Row bounds and filter facts for the paint traversal -/

/-- Row bounds of a subtree block, convenient triple form. -/
theorem rows_bound (item : FileNodeItem) (hok : counts_ok item = true)
    (level j : Nat) :
    ∀ t ∈ rows level j item,
      j ≤ t.2.2 ∧ t.2.2 ≤ j + item.children_open_count := by
  intro t ht
  obtain ⟨a, b, _⟩ := rows_mem_spec item hok level j t.1 t.2.1 t.2.2 ht
  exact ⟨a, b⟩

/-- Row bounds of a sibling-list block, convenient triple form. -/
theorem rows_list_bound (cs : List FileNodeItem)
    (hok : counts_ok_list cs = true) (level i : Nat) :
    ∀ t ∈ rows_list level i cs,
      i + 1 ≤ t.2.2 ∧ t.2.2 ≤ i + total_count cs := by
  intro t ht
  obtain ⟨a, b, _⟩ := rows_list_mem_spec cs hok level i t.1 t.2.1 t.2.2 ht
  exact ⟨a, b⟩

/-- A block whose rows all fall outside `[lo, hi]` contributes nothing. -/
theorem filter_range_nil (lo hi : Nat) (xs : List (FileNodeItem × Nat × Nat))
    (h : ∀ t ∈ xs, hi < t.2.2 ∨ t.2.2 < lo) :
    xs.filter (fun t => decide (lo ≤ t.2.2) && decide (t.2.2 ≤ hi)) = [] := by
  rw [List.filter_eq_nil_iff]
  intro a ha
  rcases h a ha with h1 | h1 <;> simp <;> omega

/-- A block whose rows all fall inside `[lo, hi]` is kept whole. -/
theorem filter_range_self (lo hi : Nat) (xs : List (FileNodeItem × Nat × Nat))
    (h : ∀ t ∈ xs, lo ≤ t.2.2 ∧ t.2.2 ≤ hi) :
    xs.filter (fun t => decide (lo ≤ t.2.2) && decide (t.2.2 ≤ hi)) = xs := by
  rw [List.filter_eq_self]
  intro a ha
  obtain ⟨h1, h2⟩ := h a ha
  simp
  omega

/-! ## The viewport walker without a naming overlay -/

/-- List half of the paint characterization: for `i ≤ hi`, the child loop
visits exactly the block entries whose row lies in `[lo, hi]` and ends at
`min (i + total_count cs) (hi + 1)`. -/
theorem paint_none_go (lo hi : Nat) (hlh : lo ≤ hi) (cs : List FileNodeItem)
    (IH : ∀ c ∈ cs, counts_ok c = true → ∀ level current drawn,
      paint_file_node_item lo hi none level current drawn c =
        ((rows level current c).filter
          (fun t => decide (lo ≤ t.2.2) && decide (t.2.2 ≤ hi)),
         drawn,
         if hi < current then current
         else if current + c.children_open_count < lo then
           current + c.children_open_count
         else min (current + c.children_open_count) (hi + 1)))
    (hok : counts_ok_list cs = true) :
    ∀ level i drawn, i ≤ hi →
      paint_children lo hi none level i drawn cs =
        ((rows_list level i cs).filter
          (fun t => decide (lo ≤ t.2.2) && decide (t.2.2 ≤ hi)),
         drawn, min (i + total_count cs) (hi + 1)) := by
  induction cs with
  | nil =>
    intro level i drawn hi1
    simp only [paint_children, rows_list, List.filter_nil, total_count_nil,
      Prod.mk.injEq]
    refine ⟨trivial, trivial, ?_⟩
    omega
  | cons c rest ih =>
    intro level i drawn hi1
    have hc : counts_ok c = true := ((counts_ok_list_cons).mp hok).1
    have hrest : counts_ok_list rest = true := ((counts_ok_list_cons).mp hok).2
    have ihrest := ih (fun x hx => IH x (List.mem_cons_of_mem c hx)) hrest
    have ihc := IH c (List.mem_cons_self c rest) hc level (i + 1) drawn
    have hcb := rows_bound c hc level (i + 1)
    have hrb := rows_list_bound rest hrest level (i + 1 + c.children_open_count)
    simp only [paint_children, rows_list, List.filter_append, total_count_cons]
    rw [ihc]
    by_cases hA : hi < i + 1
    · rw [if_pos hA]
      rw [if_pos (show i + 1 > hi from hA)]
      rw [filter_range_nil lo hi (rows level (i + 1) c)
        (fun t ht => Or.inl (by have := hcb t ht; omega))]
      rw [filter_range_nil lo hi
        (rows_list level (i + 1 + c.children_open_count) rest)
        (fun t ht => Or.inl (by have := hrb t ht; omega))]
      simp only [Prod.mk.injEq, List.append_nil]
      refine ⟨trivial, trivial, ?_⟩
      omega
    · rw [if_neg hA]
      by_cases hB : i + 1 + c.children_open_count < lo
      · rw [if_pos hB]
        rw [if_neg (show ¬(i + 1 + c.children_open_count > hi) from by omega)]
        rw [ihrest level (i + 1 + c.children_open_count) drawn (by omega)]
        rw [filter_range_nil lo hi (rows level (i + 1) c)
          (fun t ht => Or.inr (by have := hcb t ht; omega))]
        simp only [List.nil_append, Prod.mk.injEq]
        refine ⟨trivial, trivial, ?_⟩
        omega
      · rw [if_neg hB]
        by_cases hC : hi < i + 1 + c.children_open_count
        · rw [Nat.min_eq_right (by omega)]
          rw [if_pos (show hi + 1 > hi from by omega)]
          rw [filter_range_nil lo hi
            (rows_list level (i + 1 + c.children_open_count) rest)
            (fun t ht => Or.inl (by have := hrb t ht; omega))]
          simp only [List.append_nil, Prod.mk.injEq]
          refine ⟨trivial, trivial, ?_⟩
          omega
        · rw [Nat.min_eq_left (by omega)]
          rw [if_neg (show ¬(i + 1 + c.children_open_count > hi) from by omega)]
          rw [ihrest level (i + 1 + c.children_open_count) drawn (by omega)]
          simp only [Prod.mk.injEq]
          refine ⟨trivial, trivial, ?_⟩
          omega

/-- Characterization of `paint_file_node_item` with no naming overlay on a
count-consistent subtree: it emits exactly the subtree's display rows lying in
`[lo, hi]`, in order, leaves the `drawn` flag alone, and its final counter is
the subtree end clamped by early exit at `hi + 1`. -/
theorem paint_none_spec (lo hi : Nat) (hlh : lo ≤ hi) (item : FileNodeItem) :
    counts_ok item = true → ∀ level current drawn,
      paint_file_node_item lo hi none level current drawn item =
        ((rows level current item).filter
          (fun t => decide (lo ≤ t.2.2) && decide (t.2.2 ≤ hi)),
         drawn,
         if hi < current then current
         else if current + item.children_open_count < lo then
           current + item.children_open_count
         else min (current + item.children_open_count) (hi + 1)) := by
  induction item using tree_induction with
  | step p d rd o cs cnt IH =>
    intro hok level current drawn
    obtain ⟨h1, h2⟩ := counts_ok_mk.mp hok
    have hsb := rows_bound (FileNodeItem.mk p d rd o cs cnt) hok level current
    simp only [children_open_count_mk] at hsb ⊢
    by_cases hA : hi < current
    · have hpaint : paint_file_node_item lo hi none level current drawn
          (FileNodeItem.mk p d rd o cs cnt) = ([], drawn, current) := by
        simp only [paint_file_node_item]
        rw [if_pos (show current > hi from hA)]
      rw [hpaint, if_pos hA,
        filter_range_nil lo hi
          (rows level current (FileNodeItem.mk p d rd o cs cnt))
          (fun t ht => Or.inl (by have := hsb t ht; omega))]
    · by_cases hB : current + cnt < lo
      · have hpaint : paint_file_node_item lo hi none level current drawn
            (FileNodeItem.mk p d rd o cs cnt) = ([], drawn, current + cnt) := by
          simp only [paint_file_node_item, children_open_count_mk]
          rw [if_neg (show ¬(current > hi) from by omega), if_pos hB]
        rw [hpaint, if_neg hA, if_pos hB,
          filter_range_nil lo hi
            (rows level current (FileNodeItem.mk p d rd o cs cnt))
            (fun t ht => Or.inr (by have := hsb t ht; omega))]
      · rw [if_neg hA, if_neg hB]
        cases o with
        | false =>
          have h10 : cnt = 0 := by simpa using h1
          subst h10
          have hpaint : paint_file_node_item lo hi none level current drawn
              (FileNodeItem.mk p d rd false cs 0) =
              ((if lo ≤ current then
                  [(FileNodeItem.mk p d rd false cs 0, level, current)]
                else []), drawn, current) := by
            simp only [paint_file_node_item, children_open_count_mk]
            rw [if_neg (show ¬(current > hi) from by omega),
              if_neg (show ¬(current + 0 < lo) from by omega)]
            by_cases hlo : lo ≤ current
            · simp [hlo]
            · simp [hlo]
          rw [hpaint, Nat.min_eq_left (by omega)]
          simp only [rows, Bool.false_eq_true, if_false, List.filter_cons,
            Prod.mk.injEq]
          refine ⟨?_, trivial, by omega⟩
          by_cases hlo : lo ≤ current
          · rw [if_pos hlo, if_pos (by simp; omega)]
            simp
          · rw [if_neg hlo, if_neg (by simp; omega)]
            simp
        | true =>
          have h1t : cnt = total_count cs := by simpa using h1
          subst h1t
          have hgo := paint_none_go lo hi hlh cs
            (fun c hc hokc lv cur dr => IH c hc hokc lv cur dr) h2
            (level + 1) current drawn (by omega)
          have hpaint : paint_file_node_item lo hi none level current drawn
              (FileNodeItem.mk p d rd true cs (total_count cs)) =
              ((if lo ≤ current then
                  [(FileNodeItem.mk p d rd true cs (total_count cs),
                    level, current)]
                else []) ++
                (paint_children lo hi none (level + 1) current drawn cs).1,
               (paint_children lo hi none (level + 1) current drawn cs).2.1,
               (paint_children lo hi none (level + 1) current drawn cs).2.2) := by
            simp only [paint_file_node_item, children_open_count_mk]
            rw [if_neg (show ¬(current > hi) from by omega),
              if_neg (show ¬(current + total_count cs < lo) from by omega)]
            by_cases hlo : lo ≤ current
            · simp [hlo]
            · simp [hlo]
          rw [hpaint, hgo]
          simp only [rows, if_true, List.filter_cons, Prod.mk.injEq]
          refine ⟨?_, trivial⟩
          by_cases hlo : lo ≤ current
          · rw [if_pos hlo, if_pos (by simp; omega)]
            simp
          · rw [if_neg hlo, if_neg (by simp; omega)]
            simp

/-- Claim C2: the paint traversal run over the workspace root's children
(rows starting at 1, as `FileExplorerFileList::paint` runs it) on a
count-consistent tree visits exactly the visible nodes whose display row lies
in `[lo, hi]`, each once, in depth-first display order — pruning is exact —
and returns the final row counter it reached, namely the total row count
clamped by the early exit at `hi + 1`. -/
theorem claim_c2 (cs : List FileNodeItem) (lo hi : Nat)
    (hok : counts_ok_list cs = true) (hlh : lo ≤ hi) :
    paint_children lo hi none 1 0 false cs =
      ((rows_list 1 0 cs).filter
        (fun t => decide (lo ≤ t.2.2) && decide (t.2.2 ≤ hi)),
       false, min (total_count cs) (hi + 1)) := by
  have h := paint_none_go lo hi hlh cs
    (fun c _ hokc lv cur dr => paint_none_spec lo hi hlh c hokc lv cur dr) hok
    1 0 false (by omega)
  simpa using h

/-- Witness for claim C2: painting rows 1-2 of `witW` visits the directory
and its child file, skips the file at row 3, and stops at counter 3. -/
theorem claim_c2_witness :
    counts_ok_list witW.children = true ∧ (1 : Nat) ≤ 2 ∧
      paint_children 1 2 none 1 0 false witW.children =
        ((rows_list 1 0 witW.children).filter
          (fun t => decide (1 ≤ t.2.2) && decide (t.2.2 ≤ 2)),
         false, min (total_count witW.children) (2 + 1)) :=
  ⟨rfl, by omega, claim_c2 witW.children 1 2 rfl (by omega)⟩

/-! ## Row blocks shift linearly with the starting counter -/

/-- List half: moving a sibling block down one row shifts every entry. -/
theorem rows_list_shift_aux (cs : List FileNodeItem)
    (IH : ∀ c ∈ cs, ∀ lv j, rows lv (j + 1) c =
      (rows lv j c).map (fun t => (t.1, t.2.1, t.2.2 + 1))) :
    ∀ level i, rows_list level (i + 1) cs =
      (rows_list level i cs).map (fun t => (t.1, t.2.1, t.2.2 + 1)) := by
  induction cs with
  | nil => intro level i; rfl
  | cons c rest ih =>
    intro level i
    simp only [rows_list, List.map_append]
    rw [IH c (List.mem_cons_self c rest) level (i + 1)]
    have he : i + 1 + 1 + c.children_open_count =
        i + 1 + c.children_open_count + 1 := by omega
    rw [he, ih (fun x hx => IH x (List.mem_cons_of_mem c hx)) level
      (i + 1 + c.children_open_count)]

/-- Moving a subtree block down one row shifts every entry. -/
theorem rows_shift (item : FileNodeItem) :
    ∀ lv j, rows lv (j + 1) item =
      (rows lv j item).map (fun t => (t.1, t.2.1, t.2.2 + 1)) := by
  induction item using tree_induction with
  | step p d rd o cs cnt IH =>
    intro lv j
    simp only [rows, List.map_cons]
    cases o with
    | false => simp
    | true =>
      simp only [if_true]
      rw [rows_list_shift_aux cs (fun c hc => IH c hc) (lv + 1) j]

/-- Standalone list form of the shift fact. -/
theorem rows_list_shift (cs : List FileNodeItem) (level i : Nat) :
    rows_list level (i + 1) cs =
      (rows_list level i cs).map (fun t => (t.1, t.2.1, t.2.2 + 1)) :=
  rows_list_shift_aux cs (fun c _ => rows_shift c) level i

/-! ## The viewport walker after the naming overlay has been drawn -/

/-- List half: once `drawn_name_input` is set, painting a block whose rows
all fit under `hi` with any active overlay emits the plain display rows. -/
theorem paint_drawn_go (hi : Nat) (nm : Naming) (cs : List FileNodeItem)
    (IH : ∀ c ∈ cs, counts_ok c = true → ∀ level current,
      current + c.children_open_count ≤ hi →
      paint_file_node_item 0 hi (some nm) level current true c =
        (rows level current c, true, current + c.children_open_count))
    (hok : counts_ok_list cs = true) :
    ∀ level i, i + total_count cs ≤ hi →
      paint_children 0 hi (some nm) level i true cs =
        (rows_list level i cs, true, i + total_count cs) := by
  induction cs with
  | nil =>
    intro level i hfit
    simp [paint_children, rows_list]
  | cons c rest ih =>
    intro level i hfit
    have hc : counts_ok c = true := ((counts_ok_list_cons).mp hok).1
    have hrest : counts_ok_list rest = true := ((counts_ok_list_cons).mp hok).2
    have htc : total_count (c :: rest) =
        c.children_open_count + 1 + total_count rest := total_count_cons c rest
    have ihc := IH c (List.mem_cons_self c rest) hc level (i + 1)
      (by omega)
    have ihrest := ih (fun x hx => IH x (List.mem_cons_of_mem c hx)) hrest
      level (i + 1 + c.children_open_count) (by omega)
    simp only [paint_children, rows_list]
    rw [ihc]
    rw [if_neg (show ¬(i + 1 + c.children_open_count > hi) from by omega)]
    rw [ihrest]
    simp only [Prod.mk.injEq]
    refine ⟨trivial, trivial, ?_⟩
    omega

/-- Once `drawn_name_input` is set, painting a subtree that fits under `hi`
with any active overlay emits the plain display rows. -/
theorem paint_drawn_spec (hi : Nat) (nm : Naming) (item : FileNodeItem) :
    counts_ok item = true → ∀ level current,
      current + item.children_open_count ≤ hi →
      paint_file_node_item 0 hi (some nm) level current true item =
        (rows level current item, true, current + item.children_open_count) := by
  induction item using tree_induction with
  | step p d rd o cs cnt IH =>
    intro hok level current hfit
    obtain ⟨h1, h2⟩ := counts_ok_mk.mp hok
    simp only [children_open_count_mk] at hfit ⊢
    cases o with
    | false =>
      have h10 : cnt = 0 := by simpa using h1
      subst h10
      simp only [paint_file_node_item, children_open_count_mk, rows]
      rw [if_neg (show ¬(current > hi) from by omega),
        if_neg (show ¬(current + 0 < 0) from by omega)]
      simp
    | true =>
      have h1t : cnt = total_count cs := by simpa using h1
      subst h1t
      have hgo := paint_drawn_go hi nm cs
        (fun c hc hokc lv cur hf => IH c hc hokc lv cur hf) h2
        (level + 1) current (by omega)
      simp only [paint_file_node_item, children_open_count_mk, rows]
      rw [if_neg (show ¬(current > hi) from by omega),
        if_neg (show ¬(current + total_count cs < 0) from by omega)]
      simp only [if_true, Nat.zero_le, Nat.le_refl]
      rw [hgo]
      simp

/-- Entries at or past the anchor all shift: the conditional shift is a plain
shift. -/
theorem shift_map_all (a : Nat) (xs : List (FileNodeItem × Nat × Nat))
    (h : ∀ t ∈ xs, a ≤ t.2.2) :
    xs.map (fun t => if a ≤ t.2.2 then (t.1, t.2.1, t.2.2 + 1) else t) =
      xs.map (fun t => (t.1, t.2.1, t.2.2 + 1)) :=
  List.map_congr_left (fun t ht => by rw [if_pos (h t ht)])

/-- Entries before the anchor are untouched by the conditional shift. -/
theorem shift_map_none (a : Nat) (xs : List (FileNodeItem × Nat × Nat))
    (h : ∀ t ∈ xs, t.2.2 < a) :
    xs.map (fun t => if a ≤ t.2.2 then (t.1, t.2.1, t.2.2 + 1) else t) = xs := by
  have he : xs.map
      (fun t => if a ≤ t.2.2 then (t.1, t.2.1, t.2.2 + 1) else t) = xs.map id :=
    List.map_congr_left (fun t ht => by
      rw [if_neg (by have := h t ht; omega)]; rfl)
  rw [he, List.map_id]

/-- Entries whose row differs from the anchor survive the anchor filter. -/
theorem filter_ne_keep (a : Nat) (xs : List (FileNodeItem × Nat × Nat))
    (h : ∀ t ∈ xs, t.2.2 ≠ a) :
    xs.filter (fun t => decide (t.2.2 ≠ a)) = xs :=
  List.filter_eq_self.mpr (fun t ht => by simpa using h t ht)

/-! ## The viewport walker under a composing (phantom-row) overlay -/

/-- List half for the `Naming::Naming` overlay over a full-height range: a
block whose span misses the anchor paints unshifted with the flag still
clear; a block containing the anchor paints with every row at or past the
anchor shifted down one, sets the flag, and ends one past the block. -/
theorem paint_naming_go (hi a alvl : Nat) (cs : List FileNodeItem)
    (IH : ∀ c ∈ cs, counts_ok c = true → ∀ level current,
      current + c.children_open_count + 1 ≤ hi →
      ((a < current ∨ current + c.children_open_count < a) →
        paint_file_node_item 0 hi (some (Naming.Naming a alvl)) level current
            false c =
          (rows level current c, false, current + c.children_open_count)) ∧
      (current ≤ a → a ≤ current + c.children_open_count →
        paint_file_node_item 0 hi (some (Naming.Naming a alvl)) level current
            false c =
          ((rows level current c).map
            (fun t => if a ≤ t.2.2 then (t.1, t.2.1, t.2.2 + 1) else t),
           true, current + c.children_open_count + 1)))
    (hok : counts_ok_list cs = true) :
    ∀ level i, i + total_count cs + 1 ≤ hi →
      ((a ≤ i ∨ i + total_count cs < a) →
        paint_children 0 hi (some (Naming.Naming a alvl)) level i false cs =
          (rows_list level i cs, false, i + total_count cs)) ∧
      (i + 1 ≤ a → a ≤ i + total_count cs →
        paint_children 0 hi (some (Naming.Naming a alvl)) level i false cs =
          ((rows_list level i cs).map
            (fun t => if a ≤ t.2.2 then (t.1, t.2.1, t.2.2 + 1) else t),
           true, i + total_count cs + 1)) := by
  induction cs with
  | nil =>
    intro level i hfit
    refine ⟨fun hout => by simp [paint_children, rows_list], ?_⟩
    intro ha1 ha2
    rw [total_count_nil] at ha2
    omega
  | cons c rest ih =>
    intro level i hfit
    have hc : counts_ok c = true := ((counts_ok_list_cons).mp hok).1
    have hrest : counts_ok_list rest = true := ((counts_ok_list_cons).mp hok).2
    have htc : total_count (c :: rest) =
        c.children_open_count + 1 + total_count rest := total_count_cons c rest
    have ihc := IH c (List.mem_cons_self c rest) hc level (i + 1)
      (by omega)
    have ihrest := ih (fun x hx => IH x (List.mem_cons_of_mem c hx)) hrest
      level (i + 1 + c.children_open_count) (by omega)
    have hcb := rows_bound c hc level (i + 1)
    have hrb := rows_list_bound rest hrest level (i + 1 + c.children_open_count)
    constructor
    · intro hout
      have hr := ihc.1 (by rw [htc] at hout; omega)
      simp only [paint_children, rows_list]
      rw [hr]
      rw [if_neg (show ¬(i + 1 + c.children_open_count > hi) from by
        rw [htc] at hfit; omega)]
      rw [(ihrest.1 (by rw [htc] at hout; omega))]
      have hadd : i + 1 + c.children_open_count + total_count rest =
          i + total_count (c :: rest) := by rw [htc]; omega
      rw [hadd]
    · intro ha1 ha2
      rw [htc] at ha2
      simp only [paint_children, rows_list, List.map_append]
      by_cases hpos : a ≤ i + 1 + c.children_open_count
      · -- the anchor lies in the head block
        have hr := ihc.2 (by omega) (by omega)
        rw [hr]
        rw [if_neg (show ¬(i + 1 + c.children_open_count + 1 > hi) from by
          rw [htc] at hfit; omega)]
        rw [paint_drawn_go hi (Naming.Naming a alvl) rest
          (fun x _ hokx lv cur hf => paint_drawn_spec hi (Naming.Naming a alvl)
            x hokx lv cur hf) hrest level
          (i + 1 + c.children_open_count + 1) (by rw [htc] at hfit; omega)]
        rw [shift_map_all a (rows_list level (i + 1 + c.children_open_count) rest)
          (fun t ht => by have := hrb t ht; omega)]
        rw [← rows_list_shift rest level (i + 1 + c.children_open_count)]
        have hadd : i + 1 + c.children_open_count + 1 + total_count rest =
            i + total_count (c :: rest) + 1 := by rw [htc]; omega
        rw [hadd]
      · -- the anchor lies in the tail blocks
        have hr := ihc.1 (by omega)
        rw [hr]
        rw [if_neg (show ¬(i + 1 + c.children_open_count > hi) from by
          rw [htc] at hfit; omega)]
        rw [(ihrest.2 (by omega) (by omega))]
        rw [shift_map_none a (rows level (i + 1) c)
          (fun t ht => by have := hcb t ht; omega)]
        have hadd : i + 1 + c.children_open_count + total_count rest + 1 =
            i + total_count (c :: rest) + 1 := by rw [htc]; omega
        rw [hadd]

/-- Node half for the `Naming::Naming` overlay over a full-height range: a
subtree missing the anchor paints unshifted with the flag clear; a subtree
containing the anchor paints with every row at or past the anchor shifted
down one (the anchor node itself painted one row lower), sets the flag, and
ends one past the subtree. -/
theorem paint_naming_spec (hi a alvl : Nat) (item : FileNodeItem) :
    counts_ok item = true → ∀ level current,
      current + item.children_open_count + 1 ≤ hi →
      ((a < current ∨ current + item.children_open_count < a) →
        paint_file_node_item 0 hi (some (Naming.Naming a alvl)) level current
            false item =
          (rows level current item, false,
            current + item.children_open_count)) ∧
      (current ≤ a → a ≤ current + item.children_open_count →
        paint_file_node_item 0 hi (some (Naming.Naming a alvl)) level current
            false item =
          ((rows level current item).map
            (fun t => if a ≤ t.2.2 then (t.1, t.2.1, t.2.2 + 1) else t),
           true, current + item.children_open_count + 1)) := by
  induction item using tree_induction with
  | step p d rd o cs cnt IH =>
    intro hok level current hfit
    obtain ⟨h1, h2⟩ := counts_ok_mk.mp hok
    simp only [children_open_count_mk] at hfit ⊢
    constructor
    · intro hout
      have hane : ¬(current = a) := by omega
      cases o with
      | false =>
        have h10 : cnt = 0 := by simpa using h1
        subst h10
        have hpaint : paint_file_node_item 0 hi (some (Naming.Naming a alvl))
            level current false (FileNodeItem.mk p d rd false cs 0) =
            ([(FileNodeItem.mk p d rd false cs 0, level, current)],
             false, current) := by
          simp only [paint_file_node_item, children_open_count_mk,
            naming_list_index]
          rw [if_neg (show ¬(current > hi) from by omega),
            if_neg (show ¬(current + 0 < 0) from by omega),
            if_pos (Nat.zero_le current), if_neg hane]
          simp
        rw [hpaint]
        simp [rows]
      | true =>
        have h1t : cnt = total_count cs := by simpa using h1
        subst h1t
        have hgo := (paint_naming_go hi a alvl cs
          (fun c hc hokc lv cur hf => IH c hc hokc lv cur hf) h2
          (level + 1) current (by omega)).1 (by omega)
        have hpaint : paint_file_node_item 0 hi (some (Naming.Naming a alvl))
            level current false
            (FileNodeItem.mk p d rd true cs (total_count cs)) =
            ([(FileNodeItem.mk p d rd true cs (total_count cs),
                level, current)] ++
              (paint_children 0 hi (some (Naming.Naming a alvl)) (level + 1)
                current false cs).1,
             (paint_children 0 hi (some (Naming.Naming a alvl)) (level + 1)
                current false cs).2.1,
             (paint_children 0 hi (some (Naming.Naming a alvl)) (level + 1)
                current false cs).2.2) := by
          simp only [paint_file_node_item, children_open_count_mk,
            naming_list_index]
          rw [if_neg (show ¬(current > hi) from by omega),
            if_neg (show ¬(current + total_count cs < 0) from by omega),
            if_pos (Nat.zero_le current), if_neg hane]
          simp
        rw [hpaint, hgo]
        simp [rows]
    · intro hcur hle
      by_cases heq : current = a
      · subst heq
        cases o with
        | false =>
          have h10 : cnt = 0 := by simpa using h1
          subst h10
          have hpaint : paint_file_node_item 0 hi
              (some (Naming.Naming current alvl))
              level current false (FileNodeItem.mk p d rd false cs 0) =
              ([(FileNodeItem.mk p d rd false cs 0, level, current + 1)],
               true, current + 1) := by
            simp only [paint_file_node_item, children_open_count_mk,
              naming_list_index]
            rw [if_neg (show ¬(current > hi) from by omega),
              if_neg (show ¬(current + 0 < 0) from by omega),
              if_pos (Nat.zero_le current)]
            simp
          rw [hpaint]
          simp [rows]
        | true =>
          have h1t : cnt = total_count cs := by simpa using h1
          subst h1t
          have hdrawn := paint_drawn_go hi (Naming.Naming current alvl) cs
            (fun x _ hokx lv cur hf =>
              paint_drawn_spec hi (Naming.Naming current alvl) x hokx lv cur hf)
            h2 (level + 1) (current + 1) (by omega)
          have hpaint : paint_file_node_item 0 hi
              (some (Naming.Naming current alvl)) level current false
              (FileNodeItem.mk p d rd true cs (total_count cs)) =
              ([(FileNodeItem.mk p d rd true cs (total_count cs),
                  level, current + 1)] ++
                (paint_children 0 hi (some (Naming.Naming current alvl))
                  (level + 1) (current + 1) true cs).1,
               (paint_children 0 hi (some (Naming.Naming current alvl))
                  (level + 1) (current + 1) true cs).2.1,
               (paint_children 0 hi (some (Naming.Naming current alvl))
                  (level + 1) (current + 1) true cs).2.2) := by
            simp only [paint_file_node_item, children_open_count_mk,
              naming_list_index]
            rw [if_neg (show ¬(current > hi) from by omega),
              if_neg (show ¬(current + total_count cs < 0) from by omega),
              if_pos (Nat.zero_le current)]
            simp
          rw [hpaint, hdrawn]
          simp only [rows, if_true, List.map_cons, if_pos (le_refl current)]
          rw [shift_map_all current (rows_list (level + 1) current cs)
            (fun t ht => by
              have := rows_list_bound cs h2 (level + 1) current t ht; omega)]
          rw [← rows_list_shift cs (level + 1) current]
          simp
          omega
      · have hcur2 : current < a := by omega
        cases o with
        | false =>
          have h10 : cnt = 0 := by simpa using h1
          exfalso
          omega
        | true =>
          have h1t : cnt = total_count cs := by simpa using h1
          subst h1t
          have hgo := (paint_naming_go hi a alvl cs
            (fun c hc hokc lv cur hf => IH c hc hokc lv cur hf) h2
            (level + 1) current (by omega)).2 (by omega) (by omega)
          have hpaint : paint_file_node_item 0 hi (some (Naming.Naming a alvl))
              level current false
              (FileNodeItem.mk p d rd true cs (total_count cs)) =
              ([(FileNodeItem.mk p d rd true cs (total_count cs),
                  level, current)] ++
                (paint_children 0 hi (some (Naming.Naming a alvl)) (level + 1)
                  current false cs).1,
               (paint_children 0 hi (some (Naming.Naming a alvl)) (level + 1)
                  current false cs).2.1,
               (paint_children 0 hi (some (Naming.Naming a alvl)) (level + 1)
                  current false cs).2.2) := by
            simp only [paint_file_node_item, children_open_count_mk,
              naming_list_index]
            rw [if_neg (show ¬(current > hi) from by omega),
              if_neg (show ¬(current + total_count cs < 0) from by omega),
              if_pos (Nat.zero_le current), if_neg heq]
            simp
          rw [hpaint, hgo]
          simp only [rows, if_true, List.map_cons,
            if_neg (show ¬(a ≤ current) from by omega)]
          simp

/-! ## The viewport walker under a renaming (row-substituting) overlay -/

/-- List half for the `Naming::Renaming` overlay over a full-height range: a
block missing the anchor paints unchanged with the flag clear; a block
containing the anchor paints all its rows except the anchor row, unshifted,
and sets the flag. -/
theorem paint_renaming_go (hi a alvl : Nat) (cs : List FileNodeItem)
    (IH : ∀ c ∈ cs, counts_ok c = true → ∀ level current,
      current + c.children_open_count + 1 ≤ hi →
      ((a < current ∨ current + c.children_open_count < a) →
        paint_file_node_item 0 hi (some (Naming.Renaming a alvl)) level current
            false c =
          (rows level current c, false, current + c.children_open_count)) ∧
      (current ≤ a → a ≤ current + c.children_open_count →
        paint_file_node_item 0 hi (some (Naming.Renaming a alvl)) level current
            false c =
          ((rows level current c).filter (fun t => decide (t.2.2 ≠ a)),
           true, current + c.children_open_count)))
    (hok : counts_ok_list cs = true) :
    ∀ level i, i + total_count cs + 1 ≤ hi →
      ((a ≤ i ∨ i + total_count cs < a) →
        paint_children 0 hi (some (Naming.Renaming a alvl)) level i false cs =
          (rows_list level i cs, false, i + total_count cs)) ∧
      (i + 1 ≤ a → a ≤ i + total_count cs →
        paint_children 0 hi (some (Naming.Renaming a alvl)) level i false cs =
          ((rows_list level i cs).filter (fun t => decide (t.2.2 ≠ a)),
           true, i + total_count cs)) := by
  induction cs with
  | nil =>
    intro level i hfit
    refine ⟨fun hout => by simp [paint_children, rows_list], ?_⟩
    intro ha1 ha2
    rw [total_count_nil] at ha2
    omega
  | cons c rest ih =>
    intro level i hfit
    have hc : counts_ok c = true := ((counts_ok_list_cons).mp hok).1
    have hrest : counts_ok_list rest = true := ((counts_ok_list_cons).mp hok).2
    have htc : total_count (c :: rest) =
        c.children_open_count + 1 + total_count rest := total_count_cons c rest
    have ihc := IH c (List.mem_cons_self c rest) hc level (i + 1)
      (by omega)
    have ihrest := ih (fun x hx => IH x (List.mem_cons_of_mem c hx)) hrest
      level (i + 1 + c.children_open_count) (by omega)
    have hcb := rows_bound c hc level (i + 1)
    have hrb := rows_list_bound rest hrest level (i + 1 + c.children_open_count)
    constructor
    · intro hout
      have hr := ihc.1 (by rw [htc] at hout; omega)
      simp only [paint_children, rows_list]
      rw [hr]
      rw [if_neg (show ¬(i + 1 + c.children_open_count > hi) from by
        rw [htc] at hfit; omega)]
      rw [(ihrest.1 (by rw [htc] at hout; omega))]
      have hadd : i + 1 + c.children_open_count + total_count rest =
          i + total_count (c :: rest) := by rw [htc]; omega
      rw [hadd]
    · intro ha1 ha2
      rw [htc] at ha2
      simp only [paint_children, rows_list, List.filter_append]
      by_cases hpos : a ≤ i + 1 + c.children_open_count
      · have hr := ihc.2 (by omega) (by omega)
        rw [hr]
        rw [if_neg (show ¬(i + 1 + c.children_open_count > hi) from by
          rw [htc] at hfit; omega)]
        rw [paint_drawn_go hi (Naming.Renaming a alvl) rest
          (fun x _ hokx lv cur hf => paint_drawn_spec hi (Naming.Renaming a alvl)
            x hokx lv cur hf) hrest level
          (i + 1 + c.children_open_count) (by rw [htc] at hfit; omega)]
        rw [filter_ne_keep a (rows_list level (i + 1 + c.children_open_count) rest)
          (fun t ht => by have := hrb t ht; omega)]
        have hadd : i + 1 + c.children_open_count + total_count rest =
            i + total_count (c :: rest) := by rw [htc]; omega
        rw [hadd]
      · have hr := ihc.1 (by omega)
        rw [hr]
        rw [if_neg (show ¬(i + 1 + c.children_open_count > hi) from by
          rw [htc] at hfit; omega)]
        rw [(ihrest.2 (by omega) (by omega))]
        rw [filter_ne_keep a (rows level (i + 1) c)
          (fun t ht => by have := hcb t ht; omega)]
        have hadd : i + 1 + c.children_open_count + total_count rest =
            i + total_count (c :: rest) := by rw [htc]; omega
        rw [hadd]

/-- Node half for the `Naming::Renaming` overlay over a full-height range: a
subtree missing the anchor paints unchanged with the flag clear; a subtree
containing the anchor paints all rows except the anchor's, unshifted (the
anchor node's own row is substituted by the edit input, not supplemented). -/
theorem paint_renaming_spec (hi a alvl : Nat) (item : FileNodeItem) :
    counts_ok item = true → ∀ level current,
      current + item.children_open_count + 1 ≤ hi →
      ((a < current ∨ current + item.children_open_count < a) →
        paint_file_node_item 0 hi (some (Naming.Renaming a alvl)) level current
            false item =
          (rows level current item, false,
            current + item.children_open_count)) ∧
      (current ≤ a → a ≤ current + item.children_open_count →
        paint_file_node_item 0 hi (some (Naming.Renaming a alvl)) level current
            false item =
          ((rows level current item).filter (fun t => decide (t.2.2 ≠ a)),
           true, current + item.children_open_count)) := by
  induction item using tree_induction with
  | step p d rd o cs cnt IH =>
    intro hok level current hfit
    obtain ⟨h1, h2⟩ := counts_ok_mk.mp hok
    simp only [children_open_count_mk] at hfit ⊢
    constructor
    · intro hout
      have hane : ¬(current = a) := by omega
      cases o with
      | false =>
        have h10 : cnt = 0 := by simpa using h1
        subst h10
        have hpaint : paint_file_node_item 0 hi (some (Naming.Renaming a alvl))
            level current false (FileNodeItem.mk p d rd false cs 0) =
            ([(FileNodeItem.mk p d rd false cs 0, level, current)],
             false, current) := by
          simp only [paint_file_node_item, children_open_count_mk,
            naming_list_index]
          rw [if_neg (show ¬(current > hi) from by omega),
            if_neg (show ¬(current + 0 < 0) from by omega),
            if_pos (Nat.zero_le current), if_neg hane]
          simp
        rw [hpaint]
        simp [rows]
      | true =>
        have h1t : cnt = total_count cs := by simpa using h1
        subst h1t
        have hgo := (paint_renaming_go hi a alvl cs
          (fun c hc hokc lv cur hf => IH c hc hokc lv cur hf) h2
          (level + 1) current (by omega)).1 (by omega)
        have hpaint : paint_file_node_item 0 hi (some (Naming.Renaming a alvl))
            level current false
            (FileNodeItem.mk p d rd true cs (total_count cs)) =
            ([(FileNodeItem.mk p d rd true cs (total_count cs),
                level, current)] ++
              (paint_children 0 hi (some (Naming.Renaming a alvl)) (level + 1)
                current false cs).1,
             (paint_children 0 hi (some (Naming.Renaming a alvl)) (level + 1)
                current false cs).2.1,
             (paint_children 0 hi (some (Naming.Renaming a alvl)) (level + 1)
                current false cs).2.2) := by
          simp only [paint_file_node_item, children_open_count_mk,
            naming_list_index]
          rw [if_neg (show ¬(current > hi) from by omega),
            if_neg (show ¬(current + total_count cs < 0) from by omega),
            if_pos (Nat.zero_le current), if_neg hane]
          simp
        rw [hpaint, hgo]
        simp [rows]
    · intro hcur hle
      by_cases heq : current = a
      · subst heq
        cases o with
        | false =>
          have h10 : cnt = 0 := by simpa using h1
          subst h10
          have hpaint : paint_file_node_item 0 hi
              (some (Naming.Renaming current alvl))
              level current false (FileNodeItem.mk p d rd false cs 0) =
              ([], true, current) := by
            simp only [paint_file_node_item, children_open_count_mk,
              naming_list_index]
            rw [if_neg (show ¬(current > hi) from by omega),
              if_neg (show ¬(current + 0 < 0) from by omega),
              if_pos (Nat.zero_le current)]
            simp
          rw [hpaint]
          simp [rows]
        | true =>
          have h1t : cnt = total_count cs := by simpa using h1
          subst h1t
          have hdrawn := paint_drawn_go hi (Naming.Renaming current alvl) cs
            (fun x _ hokx lv cur hf =>
              paint_drawn_spec hi (Naming.Renaming current alvl) x hokx lv cur hf)
            h2 (level + 1) current (by omega)
          have hpaint : paint_file_node_item 0 hi
              (some (Naming.Renaming current alvl)) level current false
              (FileNodeItem.mk p d rd true cs (total_count cs)) =
              ((paint_children 0 hi (some (Naming.Renaming current alvl))
                  (level + 1) current true cs).1,
               (paint_children 0 hi (some (Naming.Renaming current alvl))
                  (level + 1) current true cs).2.1,
               (paint_children 0 hi (some (Naming.Renaming current alvl))
                  (level + 1) current true cs).2.2) := by
            simp only [paint_file_node_item, children_open_count_mk,
              naming_list_index]
            rw [if_neg (show ¬(current > hi) from by omega),
              if_neg (show ¬(current + total_count cs < 0) from by omega),
              if_pos (Nat.zero_le current)]
            simp
          rw [hpaint, hdrawn]
          simp only [rows, if_true, List.filter_cons]
          rw [if_neg (by simp)]
          rw [filter_ne_keep current (rows_list (level + 1) current cs)
            (fun t ht => by
              have := rows_list_bound cs h2 (level + 1) current t ht; omega)]
      · have hcur2 : current < a := by omega
        cases o with
        | false =>
          have h10 : cnt = 0 := by simpa using h1
          exfalso
          omega
        | true =>
          have h1t : cnt = total_count cs := by simpa using h1
          subst h1t
          have hgo := (paint_renaming_go hi a alvl cs
            (fun c hc hokc lv cur hf => IH c hc hokc lv cur hf) h2
            (level + 1) current (by omega)).2 (by omega) (by omega)
          have hpaint : paint_file_node_item 0 hi (some (Naming.Renaming a alvl))
              level current false
              (FileNodeItem.mk p d rd true cs (total_count cs)) =
              ([(FileNodeItem.mk p d rd true cs (total_count cs),
                  level, current)] ++
                (paint_children 0 hi (some (Naming.Renaming a alvl)) (level + 1)
                  current false cs).1,
               (paint_children 0 hi (some (Naming.Renaming a alvl)) (level + 1)
                  current false cs).2.1,
               (paint_children 0 hi (some (Naming.Renaming a alvl)) (level + 1)
                  current false cs).2.2) := by
            simp only [paint_file_node_item, children_open_count_mk,
              naming_list_index]
            rw [if_neg (show ¬(current > hi) from by omega),
              if_neg (show ¬(current + total_count cs < 0) from by omega),
              if_pos (Nat.zero_le current), if_neg heq]
            simp
          rw [hpaint, hgo]
          simp only [rows, if_true, List.filter_cons]
          rw [if_pos (by simp; omega)]
          simp

/-- Claim C5: while the overlay is composing (`Naming::Naming`), layout uses
the workspace's `children_open_count` plus exactly one phantom row and the
full-range paint traversal shifts every row at or after the anchor down by
one; while renaming (`Naming::Renaming`), layout adds no extra row and the
traversal paints every row except the anchor's, unshifted — the node's row is
substituted by the edit input, not supplemented. -/
theorem claim_c5 (ws : FileNodeItem) (a alvl hi : Nat)
    (hok : counts_ok ws = true) (hop : ws.is_open = true)
    (ha1 : 1 ≤ a) (ha2 : a ≤ ws.children_open_count)
    (hhi : ws.children_open_count + 1 ≤ hi) :
    layout_rows ws (some (Naming.Naming a alvl)) =
        ws.children_open_count + 1 ∧
      layout_rows ws (some (Naming.Renaming a alvl)) =
        ws.children_open_count ∧
      paint_children 0 hi (some (Naming.Naming a alvl)) 1 0 false ws.children =
        ((rows_list 1 0 ws.children).map
          (fun t => if a ≤ t.2.2 then (t.1, t.2.1, t.2.2 + 1) else t),
         true, ws.children_open_count + 1) ∧
      paint_children 0 hi (some (Naming.Renaming a alvl)) 1 0 false ws.children =
        ((rows_list 1 0 ws.children).filter (fun t => decide (t.2.2 ≠ a)),
         true, ws.children_open_count) := by
  rcases ws with ⟨p, d, rd, o, cs, cnt⟩
  simp only [is_open_mk] at hop
  subst hop
  obtain ⟨h1, h2⟩ := counts_ok_mk.mp hok
  have h1t : cnt = total_count cs := by simpa using h1
  subst h1t
  simp only [children_open_count_mk, children_mk] at ha2 hhi ⊢
  refine ⟨rfl, rfl, ?_, ?_⟩
  · have h := (paint_naming_go hi a alvl cs
      (fun c _ hokc lv cur hf => paint_naming_spec hi a alvl c hokc lv cur hf)
      h2 1 0 (by omega)).2 (by omega) (by omega)
    simpa using h
  · have h := (paint_renaming_go hi a alvl cs
      (fun c _ hokc lv cur hf => paint_renaming_spec hi a alvl c hokc lv cur hf)
      h2 1 0 (by omega)).2 (by omega) (by omega)
    simpa using h

/-- Witness for claim C5 on `witW` with the anchor at row 2. -/
theorem claim_c5_witness :
    counts_ok witW = true ∧ witW.is_open = true ∧
      (1 : Nat) ≤ 2 ∧ 2 ≤ witW.children_open_count ∧
      witW.children_open_count + 1 ≤ 9 ∧
      layout_rows witW (some (Naming.Naming 2 2)) =
        witW.children_open_count + 1 ∧
      layout_rows witW (some (Naming.Renaming 2 2)) = witW.children_open_count ∧
      paint_children 0 9 (some (Naming.Naming 2 2)) 1 0 false witW.children =
        ((rows_list 1 0 witW.children).map
          (fun t => if 2 ≤ t.2.2 then (t.1, t.2.1, t.2.2 + 1) else t),
         true, witW.children_open_count + 1) ∧
      paint_children 0 9 (some (Naming.Renaming 2 2)) 1 0 false witW.children =
        ((rows_list 1 0 witW.children).filter (fun t => decide (t.2.2 ≠ 2)),
         true, witW.children_open_count) := by
  obtain ⟨k1, k2, k3, k4⟩ :=
    claim_c5 witW 2 2 9 rfl rfl (by omega) (by decide) (by decide)
  exact ⟨rfl, rfl, by omega, by decide, by decide, k1, k2, k3, k4⟩
